import Mathlib
/-!
Verification development for `generate_post.py`, the static-site generator of
the Tucson Daily Brief site.  It converts one day's plain-text briefing into
an HTML post and rebuilds the chronological index.

Strings are modelled as lists of characters (`Str`).  Each definition below
mirrors one Python function of the source file; line numbers in the doc
comments refer to `generate_post.py`.
-/
set_option maxHeartbeats 1000000

set_option maxRecDepth 100000
abbrev Str := List Char
/-- Characters removed by Python's `str.strip()` (ASCII whitespace). -/
def isPySpace (c : Char) : Bool :=
  c == ' ' || c == '\t' || c == '\n' || c == '\r' || c == '\x0b' || c == '\x0c'
/-- Python `s.strip()`: whitespace removed from both ends. -/
def pyStrip (s : Str) : Str :=
  ((s.dropWhile isPySpace).reverse.dropWhile isPySpace).reverse
/-- Python `s.split("\n")`. -/
def splitNl : Str → List Str
  | [] => [[]]
  | c :: rest =>
    if c = '\n' then [] :: splitNl rest
    else
      match splitNl rest with
      | [] => [[c]]
      | l :: ls => (c :: l) :: ls
/-- Python `s.replace(o, n)` for a one-character pattern `o`: every
occurrence of `o` is replaced by `n`, scanning the original string once. -/
def replace1 (o : Char) (n : Str) : Str → Str
  | [] => []
  | c :: rest => (if c = o then n else [c]) ++ replace1 o n rest
/-- `escape`, generate_post.py lines 101-107: HTML-escape the four special
characters, ampersand first. -/
def escape (s : Str) : Str :=
  replace1 '"' "&quot;".data
    (replace1 '>' "&gt;".data
      (replace1 '<' "&lt;".data
        (replace1 '&' "&amp;".data s)))
/-- The four characters that `escape` rewrites. -/
def specChar (c : Char) : Bool :=
  c == '&' || c == '<' || c == '>' || c == '"'
/-- Character-wise description of `escape`: what a single character becomes. -/
def escChar (c : Char) : Str :=
  if c = '&' then "&amp;".data
  else if c = '<' then "&lt;".data
  else if c = '>' then "&gt;".data
  else if c = '"' then "&quot;".data
  else [c]
/-- The lazy regex fragment `(.+?)pat`: shortest nonempty newline-free
content followed by the literal `pat`; returns the content and what follows
the pattern. -/
def lazyUntil (pat : Str) : Str → Option (Str × Str)
  | [] => none
  | ch :: cs =>
    if ch = '\n' then none
    else if pat.isPrefixOf cs then some ([ch], cs.drop pat.length)
    else
      match lazyUntil pat cs with
      | some (cont, rest) => some (ch :: cont, rest)
      | none => none
/-- The close scan of the bold regex `\*\*(.+?)\*\*` once an opening `**` has
been consumed. -/
def splitAtClose : Str → Option (Str × Str) := lazyUntil ['*', '*']
/-- Bold substitution, the regex replacement
`re.sub(r"\*\*(.+?)\*\*", r"<strong>\1</strong>", text)` of line 114:
fuel-indexed left-to-right scanner.  At a position starting with `**` the
lazy close is sought; on failure the scan resumes one character later,
exactly as the regex engine does. -/
def strongSubAux : Nat → Str → Str
  | 0, s => s
  | _ + 1, [] => []
  | fuel + 1, c :: rest =>
    if c = '*' ∧ rest.head? = some '*' then
      match splitAtClose rest.tail with
      | some (cont, rest') =>
        "<strong>".data ++ cont ++ "</strong>".data ++ strongSubAux fuel rest'
      | none => '*' :: strongSubAux fuel rest
    else c :: strongSubAux fuel rest
def strongSub (s : Str) : Str := strongSubAux s.length s
/-- `inline_format`, lines 110-115: escape first, then bold substitution. -/
def inline_format (text : Str) : Str := strongSub (escape text)
/-- The first-match scan of `re.search(r"\*\*(.+?)\*\*", line)` used by
`extract_lede` (line 121); returns the first capture group. -/
def firstStrongAux : Nat → Str → Option Str
  | 0, _ => none
  | _ + 1, [] => none
  | fuel + 1, c :: rest =>
    if c = '*' ∧ rest.head? = some '*' then
      match splitAtClose rest.tail with
      | some (cont, _) => some cont
      | none => firstStrongAux fuel rest
    else firstStrongAux fuel rest
def firstStrong (s : Str) : Option Str := firstStrongAux s.length s
/-- Headline post-processing of `extract_lede` (lines 123-130): strip one
trailing period, then truncate to 117 characters plus an ellipsis when the
result exceeds 120 characters. -/
def ledeAdjust (headline : Str) : Str :=
  let h1 := if headline.getLast? = some '.' then headline.dropLast else headline
  if 120 < h1.length then h1.take 117 ++ "...".data else h1
def extractLedeGo : List Str → Str
  | [] => []
  | l :: rest =>
    match firstStrong l with
    | some h => ledeAdjust h
    | none => extractLedeGo rest
/-- `extract_lede`, lines 118-131: first bold span of the document, scanning
lines top to bottom. -/
def extract_lede (text : Str) : Str := extractLedeGo (splitNl (pyStrip text))
/-- One classified block of the parsed briefing: each constructor corresponds
to one `html_parts.append` site inside `md_to_html` (lines 63, 70, 76, 96). -/
inductive Block where
  | rule : Block
  | citation : Str → Block
  | heading : Str → Block
  | paragraph : Str → Block
deriving DecidableEq, Repr
/-- The four metadata-footer markers of lines 45-48. -/
def footerPrefixes : List Str :=
  ["Briefing saved:".data, "Sources fetched:".data,
   "Failed sources:".data, "Next update:".data]
/-- A line whose stripped text starts with one of the footer markers. -/
def isFooterLine (l : Str) : Bool :=
  footerPrefixes.any (fun p => p.isPrefixOf (pyStrip l))
/-- The backward scan of lines 42-51: `end` starts at the number of lines and
is pulled back one step for each footer line of the contiguous trailing run;
the scan breaks at the first non-footer line. -/
def computeEndGo : List Str → Nat → Nat
  | [], e => e
  | l :: rest, e => if isFooterLine l then computeEndGo rest (e - 1) else e
def computeEnd (lines : List Str) : Nat :=
  computeEndGo lines.reverse lines.length
/-- The rule regex `^[─\-]{3,}$` of line 62. -/
def isRule (l : Str) : Bool :=
  decide (3 ≤ l.length) && l.all (fun c => c == '─' || c == '-')
def newspaperGlyph : Char := Char.ofNat 0x1F4F0
def pageGlyph : Char := Char.ofNat 0x1F4C4
/-- Line 68: a citation line starts with the newspaper or the page glyph. -/
def isCitStart (l : Str) : Bool :=
  [newspaperGlyph].isPrefixOf l || [pageGlyph].isPrefixOf l
/-- Line 69: both glyphs removed everywhere in the line, then the ends
whitespace-trimmed. -/
def citText (l : Str) : Str :=
  pyStrip (replace1 pageGlyph [] (replace1 newspaperGlyph [] l))
/-- The character class `[\U0001f300-\U0001faff☀-➿️]` of the
heading regex, line 75. -/
def isPictoChar (c : Char) : Bool :=
  (decide (0x1F300 ≤ c.toNat) && decide (c.toNat ≤ 0x1FAFF)) ||
  (decide (0x2600 ≤ c.toNat) && decide (c.toNat ≤ 0x27BF)) ||
  decide (c.toNat = 0xFE0F)
def isPictoStart (l : Str) : Bool :=
  match l.head? with
  | some c => isPictoChar c
  | none => false
/-- Line 75 in full: pictographic first character and the line does not start
with the bold marker `**`. -/
def isHeadStart (l : Str) : Bool :=
  isPictoStart l && !("**".data.isPrefixOf l)
/-- The paragraph-continuation break test of lines 85-89 (note: the heading
test here is the bare character class, without the bold-marker exclusion). -/
def isParaBreak (nl : Str) : Bool :=
  nl.isEmpty || isCitStart nl || isRule nl || isPictoStart nl
/-- Python `" ".join` / the separator-joined concatenation. -/
def joinSep (sep : Str) : List Str → Str
  | [] => []
  | [x] => x
  | x :: y :: ys => x ++ sep ++ joinSep sep (y :: ys)
/-- The paragraph continuation loop of lines 81-92: collect stripped lines
until the boundary or a break line; returns the collected lines and the
position where scanning resumes. -/
def paraCollect : Nat → List Str → Nat → Nat → (List Str × Nat)
  | 0, _, _, i => ([], i)
  | fuel + 1, lines, endB, i =>
    if i < endB then
      let nl := pyStrip (lines.getD i [])
      if isParaBreak nl then ([], i)
      else
        let pr := paraCollect fuel lines endB (i + 1)
        (nl :: pr.1, pr.2)
    else ([], i)
/-- The main parse loop of `md_to_html` (lines 53-96). -/
def parseAux : Nat → List Str → Nat → Nat → List Block
  | 0, _, _, _ => []
  | fuel + 1, lines, endB, i =>
    if i < endB then
      let line := pyStrip (lines.getD i [])
      if line.isEmpty then parseAux fuel lines endB (i + 1)
      else if isRule line then Block.rule :: parseAux fuel lines endB (i + 1)
      else if isCitStart line then
        Block.citation (citText line) :: parseAux fuel lines endB (i + 1)
      else if isHeadStart line then
        Block.heading line :: parseAux fuel lines endB (i + 1)
      else
        let pr := paraCollect fuel lines endB (i + 1)
        Block.paragraph (joinSep [' '] (line :: pr.1)) ::
          parseAux fuel lines endB pr.2
    else []
/-- Skipping the first line when it is the briefing title (lines 37-39). -/
def titleOffset (lines : List Str) : Nat :=
  match lines with
  | [] => 0
  | l :: _ => if "Tucson Daily Brief".data.isPrefixOf l then 1 else 0
/-- The block sequence parsed from one briefing (`md_to_html`, lines 33-96). -/
def parseBlocks (text : Str) : List Block :=
  let lines := splitNl (pyStrip text)
  parseAux (lines.length + 1) lines (computeEnd lines) (titleOffset lines)
/-- The HTML emitted for each block (lines 63, 70, 76, 96): headings and
citations go through `escape` only, paragraphs through `inline_format`. -/
def renderBlock : Block → Str
  | Block.rule => "<hr>".data
  | Block.citation t => "<p class=\"source\">".data ++ escape t ++ "</p>".data
  | Block.heading t => "<h2>".data ++ escape t ++ "</h2>".data
  | Block.paragraph t => "<p>".data ++ inline_format t ++ "</p>".data
/-- `md_to_html` (line 98): the rendered parts joined by newlines. -/
def md_to_html (text : Str) : Str :=
  joinSep ['\n'] ((parseBlocks text).map renderBlock)

/-- Scan of `re.search(r"<strong>(.+?)</strong>", content)` (line 252): the
engine tries each start position in turn; where the literal open tag matches
it seeks the lazy close, and on failure resumes at the next character. -/
def searchStrong : Str → Option Str
  | [] => none
  | c :: rest =>
    if "<strong>".data.isPrefixOf (c :: rest) then
      match lazyUntil "</strong>".data ((c :: rest).drop 8) with
      | some (g, _) => some g
      | none => searchStrong rest
    else searchStrong rest

/-- The literal head of the index lede marker regex. -/
def ledeLit : Str := "<p class=\"post-lede\"".data

/-- The `[^>]*>` fragment: the maximal run of non-`>` characters, then `>`;
fails when no `>` remains. -/
def afterOpenTag (s : Str) : Option Str :=
  match s.dropWhile (fun c => !(c == '>')) with
  | '>' :: r => some r
  | _ => none

/-- Scan of `re.search(r'<p class="post-lede"[^>]*>(.+?)</p>', content)`
(line 249). -/
def searchLedeTag : Str → Option Str
  | [] => none
  | c :: rest =>
    if ledeLit.isPrefixOf (c :: rest) then
      match afterOpenTag ((c :: rest).drop ledeLit.length) with
      | some body =>
        match lazyUntil "</p>".data body with
        | some (g, _) => some g
        | none => searchLedeTag rest
      | none => searchLedeTag rest
    else searchLedeTag rest

/-- Python `s.rstrip(".")`: every trailing period removed. -/
def rstripDots (s : Str) : Str :=
  (s.reverse.dropWhile (fun c => c == '.')).reverse

/-- The lede recovery chain of `collect_existing_posts` (lines 249-255):
the stored marker tag, else the first strong span with trailing periods
stripped, else the empty string. -/
def recoverLede (content : Str) : Str :=
  match searchLedeTag content with
  | some g => g
  | none =>
    match searchStrong content with
    | some g => rstripDots g
    | none => []

/-- A `datetime` date. -/
structure Date where
  y : Nat
  m : Nat
  d : Nat
deriving DecidableEq, Repr

def isLeap (y : Nat) : Bool :=
  (y % 4 == 0 && !(y % 100 == 0)) || y % 400 == 0

def daysInMonth (y m : Nat) : Nat :=
  if m = 2 then (if isLeap y then 29 else 28)
  else if m = 4 ∨ m = 6 ∨ m = 9 ∨ m = 11 then 30
  else 31

def digitVal (c : Char) : Nat := c.toNat - 48

/-- `datetime.strptime(s, "%Y-%m-%d")` (lines 27 and 246): parses the
ten-character shape and validates the calendar ranges; `none` models the
`ValueError` the call raises on an invalid date. -/
def strptimeYmd (s : Str) : Option Date :=
  match s with
  | [y1, y2, y3, y4, '-', m1, m2, '-', d1, d2] =>
    if y1.isDigit && y2.isDigit && y3.isDigit && y4.isDigit &&
        m1.isDigit && m2.isDigit && d1.isDigit && d2.isDigit then
      let y := ((digitVal y1 * 10 + digitVal y2) * 10 + digitVal y3) * 10 + digitVal y4
      let m := digitVal m1 * 10 + digitVal m2
      let d := digitVal d1 * 10 + digitVal d2
      if decide (1 ≤ y) && decide (1 ≤ m) && decide (m ≤ 12) &&
          decide (1 ≤ d) && decide (d ≤ daysInMonth y m) then
        some ⟨y, m, d⟩
      else none
    else none
  | _ => none

/-- Does `\d{4}-\d{2}-\d{2}` match at the start of `s`? -/
def dateShapeAt (s : Str) : Option Str :=
  match s.take 10 with
  | [y1, y2, y3, y4, h1, m1, m2, h2, d1, d2] =>
    if y1.isDigit && y2.isDigit && y3.isDigit && y4.isDigit && h1 == '-' &&
        m1.isDigit && m2.isDigit && h2 == '-' && d1.isDigit && d2.isDigit then
      some [y1, y2, y3, y4, h1, m1, m2, h2, d1, d2]
    else none
  | _ => none

/-- `re.search(r"(\d{4}-\d{2}-\d{2})", stem)` (line 243): leftmost match. -/
def findDate : Str → Option Str
  | [] => none
  | c :: rest =>
    match dateShapeAt (c :: rest) with
    | some ds => some ds
    | none => findDate rest

def digitChar (n : Nat) : Char := "0123456789".data.getD n '0'

/-- Decimal digits of a natural number, as produced by `%-d` and `%Y` (no
padding). -/
def natStrAux : Nat → Nat → Str
  | 0, _ => []
  | fuel + 1, n =>
    if n < 10 then [digitChar n]
    else natStrAux fuel (n / 10) ++ [digitChar (n % 10)]

def natStr (n : Nat) : Str := natStrAux (n + 1) n

/-- Two-digit zero padding, as produced by `%m` and `%d`. -/
def pad2 (n : Nat) : Str := if n < 10 then '0' :: natStr n else natStr n

/-- `post_slug` (lines 144-146): `strftime("%Y-%m-%d")`. -/
def post_slug (dt : Date) : Str :=
  natStr dt.y ++ "-".data ++ pad2 dt.m ++ "-".data ++ pad2 dt.d

def monthNames : List Str :=
  ["January".data, "February".data, "March".data, "April".data, "May".data,
   "June".data, "July".data, "August".data, "September".data,
   "October".data, "November".data, "December".data]

def monthAbbrevs : List Str :=
  ["Jan".data, "Feb".data, "Mar".data, "Apr".data, "May".data, "Jun".data,
   "Jul".data, "Aug".data, "Sep".data, "Oct".data, "Nov".data, "Dec".data]

/-- `format_date_long` (lines 134-136): `strftime("%B %-d, %Y")`. -/
def format_date_long (dt : Date) : Str :=
  monthNames.getD (dt.m - 1) [] ++ " ".data ++ natStr dt.d ++ ", ".data ++
    natStr dt.y

/-- `format_date_short` (lines 139-141): `strftime("%b %-d, %Y")`. -/
def format_date_short (dt : Date) : Str :=
  monthAbbrevs.getD (dt.m - 1) [] ++ " ".data ++ natStr dt.d ++ ", ".data ++
    natStr dt.y

/-- One index entry: the dict `{date, slug, lede}` of lines 256 and 287. -/
structure Post where
  date : Date
  slug : Str
  lede : Str
deriving DecidableEq, Repr

/-- A candidate file of the posts directory: its stem (name without the
final suffix, as `Path.stem` yields) and its full text. -/
structure FileEntry where
  stem : Str
  content : Str
deriving DecidableEq, Repr

/-- The loop body of `collect_existing_posts` (lines 242-256) for one
candidate file.  `some none` is the silent `continue` for a file without a
date substring; the outer `none` models the uncaught `ValueError` of
`datetime.strptime` when the substring is not a valid calendar date. -/
def collectOne (f : FileEntry) : Option (Option Post) :=
  match findDate f.stem with
  | none => some none
  | some ds =>
    match strptimeYmd ds with
    | none => none
    | some dt =>
      some (some { date := dt, slug := post_slug dt, lede := recoverLede f.content })

def collectFiles : List FileEntry → Option (List Post)
  | [] => some []
  | f :: rest =>
    match collectOne f with
    | none => none
    | some none => collectFiles rest
    | some (some p) =>
      match collectFiles rest with
      | none => none
      | some ps => some (p :: ps)

/-- `collect_existing_posts` (lines 237-257): the posts directory is `none`
when missing (the function then returns an empty list); otherwise the
directory's `*.html` entries in scan order. -/
def collect_existing_posts (dir : Option (List FileEntry)) : Option (List Post) :=
  match dir with
  | none => some []
  | some files => collectFiles files

/-- `datetime` comparison: lexicographic on (year, month, day). -/
def dateLe (a b : Date) : Bool :=
  decide (a.y < b.y) ||
    (a.y == b.y && (decide (a.m < b.m) || (a.m == b.m && decide (a.d ≤ b.d))))

/-- One insertion step of a stable descending-by-date sort. -/
def insertDesc (x : Post) : List Post → List Post
  | [] => [x]
  | y :: ys => if dateLe x.date y.date then y :: insertDesc x ys else x :: y :: ys

/-- `posts.sort(key=lambda p: p["date"], reverse=True)` (line 288): a stable
sort placing newer dates first. -/
def sortByDateDesc : List Post → List Post
  | [] => []
  | x :: xs => insertDesc x (sortByDateDesc xs)

/-- Lines 286-288 of `main`: every recovered record carrying the new post's
identifier is dropped, the new record is appended, and the list is sorted
newest-first before `render_index` receives it. -/
def mergePosts (recovered : List Post) (newPost : Post) : List Post :=
  sortByDateDesc
    ((recovered.filter (fun p => !(p.slug == newPost.slug))) ++ [newPost])

/-- `render_post` (lines 149-187): the fixed page template around the
rendered body. -/
def render_post (date : Date) (body_html : Str) : Str :=
  "<!DOCTYPE html>\n<html lang=\"en\">\n<head>\n<meta charset=\"utf-8\">\n<meta name=\"viewport\" content=\"width=device-width, initial-scale=1\">\n<title>Tucson Daily Brief &mdash; ".data
    ++ format_date_long date
    ++ "</title>\n<link rel=\"stylesheet\" href=\"../style.css\">\n</head>\n<body>\n<div class=\"container\">\n\n<header>\n<h1><a href=\"../\">Tucson Daily Brief</a></h1>\n<p class=\"tagline\">An AI-powered local news pipeline by Nicholas De Leon</p>\n</header>\n\n<a class=\"back-link\" href=\"../\">&larr; All briefings</a>\n\n<article id=\"".data
    ++ post_slug date
    ++ "\">\n<p class=\"post-meta\">".data
    ++ format_date_long date
    ++ "</p>\n".data
    ++ body_html
    ++ "\n</article>\n\n<footer>\n<p>By Nicholas De Leon</p>\n<p class=\"footer-links\">\n<a href=\"https://podcasts.apple.com/us/podcast/tucson-daily-brief/id1795533938\">Apple Podcasts</a> &middot;\n<a href=\"https://www.youtube.com/@TucsonDailyBrief\">YouTube</a>\n</p>\n</footer>\n\n</div>\n</body>\n</html>\n".data

/-- One `<li>` entry of `render_index` (lines 195-199); the stored lede is
escaped here. -/
def renderIndexEntry (p : Post) : Str :=
  "<li>\n<span class=\"post-date\">".data ++ format_date_short p.date
    ++ "</span>\n<a href=\"posts/".data ++ p.slug ++ ".html\">".data
    ++ format_date_long p.date ++ "</a>\n<p class=\"post-lede\">".data
    ++ escape p.lede ++ "</p>\n</li>".data

/-- Line 201: the joined entries, or the empty-state placeholder. -/
def indexPostList (posts : List Post) : Str :=
  if posts.isEmpty then "<li class=\"empty\">No briefings yet.</li>".data
  else joinSep ['\n'] (posts.map renderIndexEntry)

/-- `render_index` (lines 190-234). -/
def render_index (posts : List Post) : Str :=
  "<!DOCTYPE html>\n<html lang=\"en\">\n<head>\n<meta charset=\"utf-8\">\n<meta name=\"viewport\" content=\"width=device-width, initial-scale=1\">\n<title>Tucson Daily Brief</title>\n<link rel=\"stylesheet\" href=\"style.css\">\n</head>\n<body>\n<div class=\"container\">\n\n<header>\n<h1><a href=\"./\">Tucson Daily Brief</a></h1>\n<p class=\"tagline\">An AI-powered local news pipeline by Nicholas De Leon</p>\n</header>\n\n<ul class=\"post-list\">\n".data
    ++ indexPostList posts
    ++ "\n</ul>\n\n<footer>\n<p>By Nicholas De Leon</p>\n<p class=\"footer-links\">\n<a href=\"https://podcasts.apple.com/us/podcast/tucson-daily-brief/id1795533938\">Apple Podcasts</a> &middot;\n<a href=\"https://www.youtube.com/@TucsonDailyBrief\">YouTube</a>\n</p>\n</footer>\n\n</div>\n</body>\n</html>\n".data


/-- A `<` here must be followed, inside the string, by a character other
than `s`. -/
def ltSafeHead (c : Char) (rest : Str) : Bool :=
  if c = '<' then
    match rest with
    | [] => false
    | c2 :: _ => !(c2 == 's')
  else true

/-- No suffix of this string can begin the literal `<strong>`, even after
further text is appended. -/
def ltSafe : Str → Bool
  | [] => true
  | c :: rest => ltSafeHead c rest && ltSafe rest

/-- The suffix starting here disagrees with `lit` at some position inside
the overlap of the two, so it cannot grow into an occurrence of `lit` no
matter what is appended. -/
def litSafeAt (lit t : Str) : Bool :=
  (List.zip t lit).any (fun pr => !(pr.1 == pr.2))

/-- No suffix of this string can begin the literal `lit` (whose first
character is `<`), even after further text is appended. -/
def litSafe (lit : Str) : Str → Bool
  | [] => true
  | c :: rest =>
    (if c = '<' then litSafeAt lit (c :: rest) else true) && litSafe lit rest

/-- No two adjacent asterisks anywhere. -/
def TwoStarFree (x : Str) : Prop :=
  ∀ p q : Str, x ≠ p ++ '*' :: '*' :: q

theorem replace1_append (o : Char) (n : Str) (s t : Str) :
    replace1 o n (s ++ t) = replace1 o n s ++ replace1 o n t := by
  induction s with
  | nil => rfl
  | cons c rest ih => simp [replace1, ih]

theorem escape_append (s t : Str) :
    escape (s ++ t) = escape s ++ escape t := by
  simp [escape, replace1_append]

theorem escape_nil : escape [] = [] := rfl

theorem escape_cons (c : Char) (s : Str) :
    escape (c :: s) = escChar c ++ escape s := by
  have h : (c :: s) = [c] ++ s := rfl
  rw [h, escape_append]
  congr 1
  by_cases h1 : c = '&'
  · subst h1; rfl
  · by_cases h2 : c = '<'
    · subst h2; rfl
    · by_cases h3 : c = '>'
      · subst h3; rfl
      · by_cases h4 : c = '"'
        · subst h4; rfl
        · simp [escape, replace1, escChar, h1, h2, h3, h4]

/-- `escape` acts character by character. -/
theorem escape_eq_flatMap (s : Str) : escape s = s.flatMap escChar := by
  induction s with
  | nil => rfl
  | cons c rest ih => rw [escape_cons, ih]; rfl

theorem escChar_of_not_spec {c : Char} (h : specChar c = false) :
    escChar c = [c] := by
  simp only [specChar, Bool.or_eq_false_iff, beq_eq_false_iff_ne, ne_eq] at h
  simp [escChar, h.1.1.1, h.1.1.2, h.1.2, h.2]

theorem not_mem_escChar_lt (c : Char) : '<' ∉ escChar c := by
  by_cases h1 : c = '&'
  · subst h1; decide
  · by_cases h2 : c = '<'
    · subst h2; decide
    · by_cases h3 : c = '>'
      · subst h3; decide
      · by_cases h4 : c = '"'
        · subst h4; decide
        · simp [escChar, h1, h2, h3, h4]; exact fun h => h2 h.symm

theorem not_mem_escChar_gt (c : Char) : '>' ∉ escChar c := by
  by_cases h1 : c = '&'
  · subst h1; decide
  · by_cases h2 : c = '<'
    · subst h2; decide
    · by_cases h3 : c = '>'
      · subst h3; decide
      · by_cases h4 : c = '"'
        · subst h4; decide
        · simp [escChar, h1, h2, h3, h4]; exact fun h => h3 h.symm

theorem not_mem_escChar_quot (c : Char) : '"' ∉ escChar c := by
  by_cases h1 : c = '&'
  · subst h1; decide
  · by_cases h2 : c = '<'
    · subst h2; decide
    · by_cases h3 : c = '>'
      · subst h3; decide
      · by_cases h4 : c = '"'
        · subst h4; decide
        · simp [escChar, h1, h2, h3, h4]; exact fun h => h4 h.symm

theorem not_mem_escape_lt (s : Str) : '<' ∉ escape s := by
  rw [escape_eq_flatMap]
  intro h
  obtain ⟨c, _, hc⟩ := List.mem_flatMap.mp h
  exact not_mem_escChar_lt c hc

theorem not_mem_escape_gt (s : Str) : '>' ∉ escape s := by
  rw [escape_eq_flatMap]
  intro h
  obtain ⟨c, _, hc⟩ := List.mem_flatMap.mp h
  exact not_mem_escChar_gt c hc

theorem not_mem_escape_quot (s : Str) : '"' ∉ escape s := by
  rw [escape_eq_flatMap]
  intro h
  obtain ⟨c, _, hc⟩ := List.mem_flatMap.mp h
  exact not_mem_escChar_quot c hc

theorem count_amp_escChar (c : Char) :
    (escChar c).count '&' = if specChar c then 1 else 0 := by
  by_cases h1 : c = '&'
  · subst h1; decide
  · by_cases h2 : c = '<'
    · subst h2; decide
    · by_cases h3 : c = '>'
      · subst h3; decide
      · by_cases h4 : c = '"'
        · subst h4; decide
        · have hs : specChar c = false := by
            simp [specChar, h1, h2, h3, h4]
          rw [escChar_of_not_spec hs, hs]
          simp [List.count_singleton]
          intro h; exact h1 h

/-- Every special character of the input contributes exactly one ampersand to
the escaped output (the head of its entity), and nothing else does. -/
theorem count_amp_escape (s : Str) :
    (escape s).count '&' = s.countP (fun c => specChar c) := by
  induction s with
  | nil => rfl
  | cons c rest ih =>
    rw [escape_cons, List.count_append, ih, List.countP_cons]
    rw [count_amp_escChar c]
    by_cases h : specChar c <;> simp [h, Nat.add_comm]

theorem lazyUntil_eq (pat : Str) :
    ∀ (s cont rest : Str), lazyUntil pat s = some (cont, rest) →
      s = cont ++ pat ++ rest ∧ cont ≠ [] ∧ '\n' ∉ cont := by
  intro s
  induction s with
  | nil => intro cont rest h; simp [lazyUntil] at h
  | cons ch cs ih =>
    intro cont rest h
    by_cases hnl : ch = '\n'
    · simp [lazyUntil, hnl] at h
    · by_cases hp : pat.isPrefixOf cs
      · rw [lazyUntil, if_neg hnl, if_pos hp] at h
        obtain ⟨hc, hr⟩ := Prod.mk.injEq .. ▸ (Option.some.injEq .. ▸ h)
        subst hc
        obtain ⟨tail, htail⟩ := List.isPrefixOf_iff_prefix.mp hp
        refine ⟨?_, by simp, by simp only [List.mem_singleton]; exact fun h => hnl h.symm⟩
        rw [← hr, ← htail]
        simp [List.drop_left']
      · rw [lazyUntil, if_neg hnl, if_neg hp] at h
        cases hrec : lazyUntil pat cs with
        | none => rw [hrec] at h; exact absurd h (by simp)
        | some pr =>
          obtain ⟨cont', rest'⟩ := pr
          rw [hrec] at h
          simp only [Option.some.injEq, Prod.mk.injEq] at h
          obtain ⟨hc, hr⟩ := h
          obtain ⟨heq, hne, hnm⟩ := ih cont' rest' hrec
          subst hc; subst hr
          refine ⟨by simp [heq], by simp, ?_⟩
          simp only [List.mem_cons]
          rintro (h | h)
          · exact hnl h.symm
          · exact hnm h

theorem splitAtClose_eq {s cont rest : Str}
    (h : splitAtClose s = some (cont, rest)) :
    s = cont ++ '*' :: '*' :: rest ∧ cont ≠ [] ∧ '\n' ∉ cont := by
  have := lazyUntil_eq ['*', '*'] s cont rest h
  simpa using this

theorem splitAtClose_length {s cont rest : Str}
    (h : splitAtClose s = some (cont, rest)) : rest.length < s.length := by
  obtain ⟨heq, hne, -⟩ := splitAtClose_eq h
  subst heq
  simp only [List.length_append, List.length_cons]
  omega

theorem strongSubAux_nil (fuel : Nat) : strongSubAux fuel [] = [] := by
  cases fuel <;> rfl

theorem strongSubAux_open (fuel : Nat) (rest : Str) :
    strongSubAux (fuel + 1) ('*' :: '*' :: rest) =
      match splitAtClose rest with
      | some (cont, rest') =>
        "<strong>".data ++ cont ++ "</strong>".data ++ strongSubAux fuel rest'
      | none => '*' :: strongSubAux fuel ('*' :: rest) := rfl

theorem strongSubAux_pass (fuel : Nat) {c : Char} {rest : Str}
    (h : ¬(c = '*' ∧ rest.head? = some '*')) :
    strongSubAux (fuel + 1) (c :: rest) = c :: strongSubAux fuel rest := by
  simp only [strongSubAux, if_neg h]

theorem strongSubAux_irrel :
    ∀ (n : Nat) (s : Str), s.length ≤ n →
      ∀ fuel fuel', s.length ≤ fuel → s.length ≤ fuel' →
        strongSubAux fuel s = strongSubAux fuel' s := by
  intro n
  induction n with
  | zero =>
    intro s hs fuel fuel' _ _
    have : s = [] := List.length_eq_zero.mp (Nat.le_zero.mp hs)
    subst this
    rw [strongSubAux_nil, strongSubAux_nil]
  | succ n ih =>
    intro s hs fuel fuel' hf hf'
    cases s with
    | nil => rw [strongSubAux_nil, strongSubAux_nil]
    | cons c rest =>
      obtain ⟨f, rfl⟩ : ∃ f, fuel = f + 1 := by
        cases fuel with
        | zero => simp at hf
        | succ f => exact ⟨f, rfl⟩
      obtain ⟨f', rfl⟩ : ∃ f', fuel' = f' + 1 := by
        cases fuel' with
        | zero => simp at hf'
        | succ f' => exact ⟨f', rfl⟩
      simp only [List.length_cons] at hs hf hf'
      by_cases hc : c = '*' ∧ rest.head? = some '*'
      · obtain ⟨hc1, hc2⟩ := hc
        subst hc1
        obtain ⟨rest2, rfl⟩ : ∃ r2, rest = '*' :: r2 := by
          cases rest with
          | nil => simp at hc2
          | cons d r2 =>
            simp only [List.head?_cons, Option.some.injEq] at hc2
            subst hc2
            exact ⟨r2, rfl⟩
        rw [strongSubAux_open f, strongSubAux_open f']
        simp only [List.length_cons] at hs hf hf'
        cases hsp : splitAtClose rest2 with
        | some pr =>
          obtain ⟨cont, rest'⟩ := pr
          show "<strong>".data ++ cont ++ "</strong>".data ++ strongSubAux f rest' =
            "<strong>".data ++ cont ++ "</strong>".data ++ strongSubAux f' rest'
          have hlen := splitAtClose_length hsp
          rw [ih rest' (by omega) f f' (by omega) (by omega)]
        | none =>
          show '*' :: strongSubAux f ('*' :: rest2) =
            '*' :: strongSubAux f' ('*' :: rest2)
          rw [ih ('*' :: rest2) (by simp only [List.length_cons]; omega) f f'
            (by simp only [List.length_cons]; omega)
            (by simp only [List.length_cons]; omega)]
      · rw [strongSubAux_pass f hc, strongSubAux_pass f' hc]
        rw [ih rest (by omega) f f' (by omega) (by omega)]

theorem strongSub_step (fuel : Nat) (s : Str) (h : s.length ≤ fuel) :
    strongSub s = strongSubAux fuel s :=
  strongSubAux_irrel s.length s le_rfl s.length fuel le_rfl h

theorem strongSub_nil : strongSub [] = [] := rfl

/-- A character that does not begin a `**` pair passes through unchanged. -/
theorem strongSub_pass {c : Char} {rest : Str}
    (h : ¬(c = '*' ∧ rest.head? = some '*')) :
    strongSub (c :: rest) = c :: strongSub rest := by
  show strongSubAux (c :: rest).length (c :: rest) = _
  rw [List.length_cons, strongSubAux_pass rest.length h]
  rw [← strongSub_step rest.length rest le_rfl]

/-- An opening `**` whose lazy close succeeds becomes a strong tag around the
(minimal) enclosed content, and scanning resumes after the close. -/
theorem strongSub_open_some {rest cont rest' : Str}
    (h : splitAtClose rest = some (cont, rest')) :
    strongSub ('*' :: '*' :: rest) =
      "<strong>".data ++ cont ++ "</strong>".data ++ strongSub rest' := by
  show strongSubAux ('*' :: '*' :: rest).length _ = _
  rw [List.length_cons, List.length_cons, strongSubAux_open (rest.length + 1) rest, h]
  have hlen := splitAtClose_length h
  show "<strong>".data ++ cont ++ "</strong>".data ++ strongSubAux (rest.length + 1) rest' = _
  rw [← strongSub_step (rest.length + 1) rest' (by omega)]

/-- An opening `**` with no matching close is left as literal text: the
scanner emits one `*` and retries from the next character. -/
theorem strongSub_open_none {rest : Str} (h : splitAtClose rest = none) :
    strongSub ('*' :: '*' :: rest) = '*' :: strongSub ('*' :: rest) := by
  show strongSubAux ('*' :: '*' :: rest).length _ = _
  rw [List.length_cons, List.length_cons, strongSubAux_open (rest.length + 1) rest, h]
  show '*' :: strongSubAux (rest.length + 1) ('*' :: rest) = _
  rw [← strongSub_step (rest.length + 1) ('*' :: rest) (by simp)]

theorem firstStrongAux_nil (fuel : Nat) : firstStrongAux fuel [] = none := by
  cases fuel <;> rfl

theorem firstStrongAux_open (fuel : Nat) (rest : Str) :
    firstStrongAux (fuel + 1) ('*' :: '*' :: rest) =
      match splitAtClose rest with
      | some (cont, _) => some cont
      | none => firstStrongAux fuel ('*' :: rest) := rfl

theorem firstStrongAux_pass (fuel : Nat) {c : Char} {rest : Str}
    (h : ¬(c = '*' ∧ rest.head? = some '*')) :
    firstStrongAux (fuel + 1) (c :: rest) = firstStrongAux fuel rest := by
  simp only [firstStrongAux, if_neg h]

theorem firstStrongAux_irrel :
    ∀ (n : Nat) (s : Str), s.length ≤ n →
      ∀ fuel fuel', s.length ≤ fuel → s.length ≤ fuel' →
        firstStrongAux fuel s = firstStrongAux fuel' s := by
  intro n
  induction n with
  | zero =>
    intro s hs fuel fuel' _ _
    have : s = [] := List.length_eq_zero.mp (Nat.le_zero.mp hs)
    subst this
    rw [firstStrongAux_nil, firstStrongAux_nil]
  | succ n ih =>
    intro s hs fuel fuel' hf hf'
    cases s with
    | nil => rw [firstStrongAux_nil, firstStrongAux_nil]
    | cons c rest =>
      obtain ⟨f, rfl⟩ : ∃ f, fuel = f + 1 := by
        cases fuel with
        | zero => simp at hf
        | succ f => exact ⟨f, rfl⟩
      obtain ⟨f', rfl⟩ : ∃ f', fuel' = f' + 1 := by
        cases fuel' with
        | zero => simp at hf'
        | succ f' => exact ⟨f', rfl⟩
      simp only [List.length_cons] at hs hf hf'
      by_cases hc : c = '*' ∧ rest.head? = some '*'
      · obtain ⟨hc1, hc2⟩ := hc
        subst hc1
        obtain ⟨rest2, rfl⟩ : ∃ r2, rest = '*' :: r2 := by
          cases rest with
          | nil => simp at hc2
          | cons d r2 =>
            simp only [List.head?_cons, Option.some.injEq] at hc2
            subst hc2
            exact ⟨r2, rfl⟩
        rw [firstStrongAux_open f, firstStrongAux_open f']
        simp only [List.length_cons] at hs hf hf'
        cases hsp : splitAtClose rest2 with
        | some pr => rfl
        | none =>
          show firstStrongAux f ('*' :: rest2) = firstStrongAux f' ('*' :: rest2)
          rw [ih ('*' :: rest2) (by simp only [List.length_cons]; omega) f f'
            (by simp only [List.length_cons]; omega)
            (by simp only [List.length_cons]; omega)]
      · rw [firstStrongAux_pass f hc, firstStrongAux_pass f' hc]
        rw [ih rest (by omega) f f' (by omega) (by omega)]

theorem firstStrong_step (fuel : Nat) (s : Str) (h : s.length ≤ fuel) :
    firstStrong s = firstStrongAux fuel s :=
  firstStrongAux_irrel s.length s le_rfl s.length fuel le_rfl h

theorem firstStrong_pass {c : Char} {rest : Str}
    (h : ¬(c = '*' ∧ rest.head? = some '*')) :
    firstStrong (c :: rest) = firstStrong rest := by
  show firstStrongAux (c :: rest).length (c :: rest) = _
  rw [List.length_cons, firstStrongAux_pass rest.length h]
  rw [← firstStrong_step rest.length rest le_rfl]

theorem firstStrong_open_some {rest cont rest' : Str}
    (h : splitAtClose rest = some (cont, rest')) :
    firstStrong ('*' :: '*' :: rest) = some cont := by
  show firstStrongAux ('*' :: '*' :: rest).length _ = _
  rw [List.length_cons, List.length_cons, firstStrongAux_open (rest.length + 1) rest, h]

theorem firstStrong_open_none {rest : Str} (h : splitAtClose rest = none) :
    firstStrong ('*' :: '*' :: rest) = firstStrong ('*' :: rest) := by
  show firstStrongAux ('*' :: '*' :: rest).length _ = _
  rw [List.length_cons, List.length_cons, firstStrongAux_open (rest.length + 1) rest, h]
  show firstStrongAux (rest.length + 1) ('*' :: rest) = _
  rw [← firstStrong_step (rest.length + 1) ('*' :: rest) (by simp)]

theorem paraCollect_stop (fuel : Nat) (lines : List Str) (endB i : Nat)
    (h : ¬ i < endB) : paraCollect fuel lines endB i = ([], i) := by
  cases fuel with
  | zero => rfl
  | succ f => simp only [paraCollect, if_neg h]

theorem paraCollect_break (fuel : Nat) (lines : List Str) (endB i : Nat)
    (h : i < endB) (hb : isParaBreak (pyStrip (lines.getD i [])) = true) :
    paraCollect (fuel + 1) lines endB i = ([], i) := by
  simp only [paraCollect, if_pos h, hb, if_pos]

theorem paraCollect_cons (fuel : Nat) (lines : List Str) (endB i : Nat)
    (h : i < endB) (hb : ¬ isParaBreak (pyStrip (lines.getD i [])) = true) :
    paraCollect (fuel + 1) lines endB i =
      (pyStrip (lines.getD i []) :: (paraCollect fuel lines endB (i + 1)).1,
       (paraCollect fuel lines endB (i + 1)).2) := by
  simp only [paraCollect, if_pos h, if_neg hb]

theorem paraCollect_ge (fuel : Nat) (lines : List Str) (endB : Nat) :
    ∀ i, i ≤ (paraCollect fuel lines endB i).2 := by
  induction fuel with
  | zero => intro i; exact le_rfl
  | succ f ih =>
    intro i
    by_cases h : i < endB
    · by_cases hb : isParaBreak (pyStrip (lines.getD i [])) = true
      · rw [paraCollect_break f lines endB i h hb]
      · rw [paraCollect_cons f lines endB i h hb]
        exact le_trans (Nat.le_succ i) (ih (i + 1))
    · rw [paraCollect_stop (f + 1) lines endB i h]

theorem paraCollect_irrel (lines : List Str) (endB : Nat) :
    ∀ (n i fuel fuel' : Nat), endB - i ≤ n → endB - i ≤ fuel →
      endB - i ≤ fuel' →
      paraCollect fuel lines endB i = paraCollect fuel' lines endB i := by
  intro n
  induction n with
  | zero =>
    intro i fuel fuel' hn _ _
    have h : ¬ i < endB := by omega
    rw [paraCollect_stop fuel lines endB i h, paraCollect_stop fuel' lines endB i h]
  | succ n ih =>
    intro i fuel fuel' hn hf hf'
    by_cases h : i < endB
    · obtain ⟨f, rfl⟩ : ∃ f, fuel = f + 1 := by
        cases fuel with
        | zero => omega
        | succ f => exact ⟨f, rfl⟩
      obtain ⟨f', rfl⟩ : ∃ f', fuel' = f' + 1 := by
        cases fuel' with
        | zero => omega
        | succ f' => exact ⟨f', rfl⟩
      by_cases hb : isParaBreak (pyStrip (lines.getD i [])) = true
      · rw [paraCollect_break f lines endB i h hb,
          paraCollect_break f' lines endB i h hb]
      · rw [paraCollect_cons f lines endB i h hb,
          paraCollect_cons f' lines endB i h hb,
          ih (i + 1) f f' (by omega) (by omega) (by omega)]
    · rw [paraCollect_stop fuel lines endB i h, paraCollect_stop fuel' lines endB i h]

theorem parseAux_stop (fuel : Nat) (lines : List Str) (endB i : Nat)
    (h : ¬ i < endB) : parseAux fuel lines endB i = [] := by
  cases fuel with
  | zero => rfl
  | succ f => simp only [parseAux, if_neg h]

theorem parseAux_blank (fuel : Nat) (lines : List Str) (endB i : Nat)
    (h : i < endB) (hb : (pyStrip (lines.getD i [])).isEmpty = true) :
    parseAux (fuel + 1) lines endB i = parseAux fuel lines endB (i + 1) := by
  simp only [parseAux, if_pos h, hb, if_pos]

theorem parseAux_rule (fuel : Nat) (lines : List Str) (endB i : Nat)
    (h : i < endB) (hb : ¬ (pyStrip (lines.getD i [])).isEmpty = true)
    (hr : isRule (pyStrip (lines.getD i [])) = true) :
    parseAux (fuel + 1) lines endB i =
      Block.rule :: parseAux fuel lines endB (i + 1) := by
  simp only [parseAux, if_pos h, if_neg hb, hr, if_pos]

theorem parseAux_citation (fuel : Nat) (lines : List Str) (endB i : Nat)
    (h : i < endB) (hb : ¬ (pyStrip (lines.getD i [])).isEmpty = true)
    (hr : ¬ isRule (pyStrip (lines.getD i [])) = true)
    (hcit : isCitStart (pyStrip (lines.getD i [])) = true) :
    parseAux (fuel + 1) lines endB i =
      Block.citation (citText (pyStrip (lines.getD i []))) ::
        parseAux fuel lines endB (i + 1) := by
  simp only [parseAux, if_pos h, if_neg hb, if_neg hr, hcit, if_pos]

theorem parseAux_heading (fuel : Nat) (lines : List Str) (endB i : Nat)
    (h : i < endB) (hb : ¬ (pyStrip (lines.getD i [])).isEmpty = true)
    (hr : ¬ isRule (pyStrip (lines.getD i [])) = true)
    (hcit : ¬ isCitStart (pyStrip (lines.getD i [])) = true)
    (hh : isHeadStart (pyStrip (lines.getD i [])) = true) :
    parseAux (fuel + 1) lines endB i =
      Block.heading (pyStrip (lines.getD i [])) ::
        parseAux fuel lines endB (i + 1) := by
  simp only [parseAux, if_pos h, if_neg hb, if_neg hr, if_neg hcit, hh, if_pos]

theorem parseAux_paragraph (fuel : Nat) (lines : List Str) (endB i : Nat)
    (h : i < endB) (hb : ¬ (pyStrip (lines.getD i [])).isEmpty = true)
    (hr : ¬ isRule (pyStrip (lines.getD i [])) = true)
    (hcit : ¬ isCitStart (pyStrip (lines.getD i [])) = true)
    (hh : ¬ isHeadStart (pyStrip (lines.getD i [])) = true) :
    parseAux (fuel + 1) lines endB i =
      Block.paragraph (joinSep [' ']
          (pyStrip (lines.getD i []) :: (paraCollect fuel lines endB (i + 1)).1)) ::
        parseAux fuel lines endB (paraCollect fuel lines endB (i + 1)).2 := by
  simp only [parseAux, if_pos h, if_neg hb, if_neg hr, if_neg hcit, if_neg hh]

theorem parseAux_irrel (lines : List Str) (endB : Nat) :
    ∀ (n i fuel fuel' : Nat), endB - i ≤ n → endB - i ≤ fuel →
      endB - i ≤ fuel' →
      parseAux fuel lines endB i = parseAux fuel' lines endB i := by
  intro n
  induction n with
  | zero =>
    intro i fuel fuel' hn _ _
    have h : ¬ i < endB := by omega
    rw [parseAux_stop fuel lines endB i h, parseAux_stop fuel' lines endB i h]
  | succ n ih =>
    intro i fuel fuel' hn hf hf'
    by_cases h : i < endB
    · obtain ⟨f, rfl⟩ : ∃ f, fuel = f + 1 := by
        cases fuel with
        | zero => omega
        | succ f => exact ⟨f, rfl⟩
      obtain ⟨f', rfl⟩ : ∃ f', fuel' = f' + 1 := by
        cases fuel' with
        | zero => omega
        | succ f' => exact ⟨f', rfl⟩
      by_cases h1 : (pyStrip (lines.getD i [])).isEmpty = true
      · rw [parseAux_blank f lines endB i h h1, parseAux_blank f' lines endB i h h1,
          ih (i + 1) f f' (by omega) (by omega) (by omega)]
      · by_cases h2 : isRule (pyStrip (lines.getD i [])) = true
        · rw [parseAux_rule f lines endB i h h1 h2, parseAux_rule f' lines endB i h h1 h2,
            ih (i + 1) f f' (by omega) (by omega) (by omega)]
        · by_cases h3 : isCitStart (pyStrip (lines.getD i [])) = true
          · rw [parseAux_citation f lines endB i h h1 h2 h3,
              parseAux_citation f' lines endB i h h1 h2 h3,
              ih (i + 1) f f' (by omega) (by omega) (by omega)]
          · by_cases h4 : isHeadStart (pyStrip (lines.getD i [])) = true
            · rw [parseAux_heading f lines endB i h h1 h2 h3 h4,
                parseAux_heading f' lines endB i h h1 h2 h3 h4,
                ih (i + 1) f f' (by omega) (by omega) (by omega)]
            · rw [parseAux_paragraph f lines endB i h h1 h2 h3 h4,
                parseAux_paragraph f' lines endB i h h1 h2 h3 h4]
              have hpc := paraCollect_irrel lines endB n (i + 1) f f'
                (by omega) (by omega) (by omega)
              rw [hpc]
              have hge := paraCollect_ge f' lines endB (i + 1)
              rw [ih (paraCollect f' lines endB (i + 1)).2 f f'
                (by omega) (by omega) (by omega)]
    · rw [parseAux_stop fuel lines endB i h, parseAux_stop fuel' lines endB i h]

theorem dateLe_total (a b : Date) : dateLe a b = true ∨ dateLe b a = true := by
  simp only [dateLe, Bool.or_eq_true, Bool.and_eq_true, decide_eq_true_eq,
    beq_iff_eq]
  omega

theorem dateLe_trans {a b c : Date} (h1 : dateLe a b = true)
    (h2 : dateLe b c = true) : dateLe a c = true := by
  simp only [dateLe, Bool.or_eq_true, Bool.and_eq_true, decide_eq_true_eq,
    beq_iff_eq] at h1 h2 ⊢
  omega

theorem mem_insertDesc (x a : Post) :
    ∀ l : List Post, a ∈ insertDesc x l ↔ a = x ∨ a ∈ l := by
  intro l
  induction l with
  | nil => simp [insertDesc]
  | cons y ys ih =>
    by_cases h : dateLe x.date y.date = true
    · simp only [insertDesc, if_pos h, List.mem_cons, ih]
      tauto
    · simp only [insertDesc, if_neg h, List.mem_cons]

theorem countP_insertDesc (x : Post) (q : Post → Bool) :
    ∀ l : List Post,
      (insertDesc x l).countP q = (if q x then 1 else 0) + l.countP q := by
  intro l
  induction l with
  | nil => by_cases h : q x <;> simp [insertDesc, List.countP_cons, h]
  | cons y ys ih =>
    by_cases h : dateLe x.date y.date = true
    · simp only [insertDesc, if_pos h, List.countP_cons, ih]
      omega
    · simp only [insertDesc, if_neg h, List.countP_cons]
      omega

theorem pairwise_insertDesc (x : Post) :
    ∀ l : List Post,
      l.Pairwise (fun a b => dateLe b.date a.date = true) →
      (insertDesc x l).Pairwise (fun a b => dateLe b.date a.date = true) := by
  intro l
  induction l with
  | nil => intro _; simp [insertDesc]
  | cons y ys ih =>
    intro hp
    obtain ⟨hhead, htail⟩ := List.pairwise_cons.mp hp
    by_cases h : dateLe x.date y.date = true
    · rw [insertDesc, if_pos h]
      refine List.pairwise_cons.mpr ⟨?_, ih htail⟩
      intro a ha
      rcases (mem_insertDesc x a ys).mp ha with rfl | ha
      · exact h
      · exact hhead a ha
    · rw [insertDesc, if_neg h]
      have hyx : dateLe y.date x.date = true := (dateLe_total x.date y.date).resolve_left h
      refine List.pairwise_cons.mpr ⟨?_, hp⟩
      intro a ha
      rcases List.mem_cons.mp ha with rfl | ha
      · exact hyx
      · exact dateLe_trans (hhead a ha) hyx

theorem mem_sortByDateDesc (a : Post) :
    ∀ l : List Post, a ∈ sortByDateDesc l ↔ a ∈ l := by
  intro l
  induction l with
  | nil => simp [sortByDateDesc]
  | cons x xs ih =>
    simp only [sortByDateDesc, mem_insertDesc, ih, List.mem_cons]

theorem countP_sortByDateDesc (q : Post → Bool) :
    ∀ l : List Post, (sortByDateDesc l).countP q = l.countP q := by
  intro l
  induction l with
  | nil => rfl
  | cons x xs ih =>
    rw [sortByDateDesc, countP_insertDesc, ih, List.countP_cons, Nat.add_comm]

theorem pairwise_sortByDateDesc :
    ∀ l : List Post,
      (sortByDateDesc l).Pairwise (fun a b => dateLe b.date a.date = true) := by
  intro l
  induction l with
  | nil => simp [sortByDateDesc]
  | cons x xs ih => exact pairwise_insertDesc x (sortByDateDesc xs) ih

/-- C1: the merged list handed to the index renderer contains exactly one
record with the new post's identifier — the new record itself, every
recovered record with that identifier having been filtered out — and is
sorted descending by date, so re-rendering a date never duplicates its index
entry; posts dated 2026-02-01, 2026-02-18, 2026-01-30 come out in the order
2026-02-18, 2026-02-01, 2026-01-30. -/
theorem c1_merge_supersedes_and_sorts (recovered : List Post) (newPost : Post) :
    (mergePosts recovered newPost).countP (fun p => p.slug == newPost.slug) = 1 ∧
    newPost ∈ mergePosts recovered newPost ∧
    (∀ p ∈ mergePosts recovered newPost, p.slug = newPost.slug → p = newPost) ∧
    (mergePosts recovered newPost).Pairwise
      (fun a b => dateLe b.date a.date = true) ∧
    (mergePosts
        [⟨⟨2026, 2, 1⟩, "2026-02-01".data, "a".data⟩,
         ⟨⟨2026, 1, 30⟩, "2026-01-30".data, "b".data⟩]
        ⟨⟨2026, 2, 18⟩, "2026-02-18".data, "c".data⟩).map Post.date =
      [⟨2026, 2, 18⟩, ⟨2026, 2, 1⟩, ⟨2026, 1, 30⟩] := by
  refine ⟨?_, ?_, ?_, ?_, by decide⟩
  · rw [mergePosts, countP_sortByDateDesc, List.countP_append]
    have h0 : (recovered.filter (fun p => !(p.slug == newPost.slug))).countP
        (fun p => p.slug == newPost.slug) = 0 := by
      rw [List.countP_eq_zero]
      intro p hp
      have := List.of_mem_filter hp
      simpa using this
    rw [h0]
    simp [List.countP_cons]
  · rw [mergePosts, mem_sortByDateDesc]
    simp
  · intro p hp hslug
    rw [mergePosts, mem_sortByDateDesc] at hp
    rcases List.mem_append.mp hp with hp | hp
    · have := List.of_mem_filter hp
      simp only [Bool.not_eq_true', beq_eq_false_iff_ne, ne_eq] at this
      exact absurd hslug this
    · simpa using hp
  · exact pairwise_sortByDateDesc _

/-- Concrete instance of `c1_merge_supersedes_and_sorts`: merging a new
record over a recovered list that already contains its identifier leaves a
single record with that identifier. -/
theorem c1_witness :
    (mergePosts
        [⟨⟨2026, 2, 18⟩, "2026-02-18".data, "old".data⟩]
        ⟨⟨2026, 2, 18⟩, "2026-02-18".data, "new".data⟩).countP
      (fun p => p.slug == "2026-02-18".data) = 1 ∧
    (∀ p ∈ mergePosts
        [⟨⟨2026, 2, 18⟩, "2026-02-18".data, "old".data⟩]
        ⟨⟨2026, 2, 18⟩, "2026-02-18".data, "new".data⟩,
      p.slug = "2026-02-18".data →
        p = ⟨⟨2026, 2, 18⟩, "2026-02-18".data, "new".data⟩) :=
  ⟨(c1_merge_supersedes_and_sorts
      [⟨⟨2026, 2, 18⟩, "2026-02-18".data, "old".data⟩]
      ⟨⟨2026, 2, 18⟩, "2026-02-18".data, "new".data⟩).1,
   (c1_merge_supersedes_and_sorts
      [⟨⟨2026, 2, 18⟩, "2026-02-18".data, "old".data⟩]
      ⟨⟨2026, 2, 18⟩, "2026-02-18".data, "new".data⟩).2.2.1⟩

theorem computeEndGo_eq :
    ∀ (rl : List Str) (e : Nat),
      computeEndGo rl e = e - (rl.takeWhile isFooterLine).length := by
  intro rl
  induction rl with
  | nil => intro e; simp [computeEndGo]
  | cons l rest ih =>
    intro e
    by_cases h : isFooterLine l = true
    · rw [computeEndGo, if_pos h, ih, List.takeWhile_cons_of_pos h]
      simp only [List.length_cons]
      omega
    · rw [computeEndGo, if_neg h, List.takeWhile_cons_of_neg (by simpa using h)]
      simp

theorem takeWhile_getD {α} (p : α → Bool) (d : α) :
    ∀ (l : List α) (k : Nat), k < (l.takeWhile p).length →
      p (l.getD k d) = true := by
  intro l
  induction l with
  | nil => intro k hk; simp [List.takeWhile] at hk
  | cons x xs ih =>
    intro k hk
    by_cases h : p x = true
    · rw [List.takeWhile_cons_of_pos h] at hk
      cases k with
      | zero => simpa using h
      | succ k =>
        simp only [List.length_cons, Nat.succ_lt_succ_iff] at hk
        simpa using ih k hk
    · rw [List.takeWhile_cons_of_neg (by simpa using h)] at hk
      simp at hk

/-- C2: exactly the contiguous trailing run of footer-prefixed lines is
excluded from parsing — the backward scan stops at the first non-matching
trailing line, so a footer-prefixed line with a non-matching line below it
is parsed as ordinary content; a document ending in the two example footer
lines yields no block containing either line. -/
theorem c2_footer_boundary :
    (∀ lines : List Str,
      computeEnd lines =
        lines.length - (lines.reverse.takeWhile isFooterLine).length) ∧
    (∀ (lines : List Str) (j j' : Nat), j < j' → j' < lines.length →
      isFooterLine (lines.getD j []) = true →
      ¬ isFooterLine (lines.getD j' []) = true →
      j < computeEnd lines) ∧
    parseBlocks ("Tucson Daily Brief — February 18, 2026\n**Top story.** More text.\nBriefing saved: 2026-02-18 06:00\nSources fetched: 12".data) =
      [Block.paragraph "**Top story.** More text.".data] ∧
    parseBlocks ("**Top story.**\n\nBriefing saved: 2026-02-18 06:00\n\nNext update: tomorrow".data) =
      [Block.paragraph "**Top story.**".data,
       Block.paragraph "Briefing saved: 2026-02-18 06:00".data] := by
  have hmain : ∀ lines : List Str,
      computeEnd lines =
        lines.length - (lines.reverse.takeWhile isFooterLine).length := by
    intro lines
    rw [computeEnd, computeEndGo_eq]
  refine ⟨hmain, ?_, by decide, by decide⟩
  intro lines j j' hjj' hj'len hfoot hnot
  rw [hmain]
  have hrun : (lines.reverse.takeWhile isFooterLine).length ≤
      lines.length - 1 - j' := by
    by_contra hcon
    push_neg at hcon
    have hk : lines.length - 1 - j' <
        (lines.reverse.takeWhile isFooterLine).length := hcon
    have hfoot' := takeWhile_getD isFooterLine [] lines.reverse _ hk
    have hlt : lines.length - 1 - j' < lines.reverse.length := by
      rw [List.length_reverse]; omega
    have hj'lt : j' < lines.length := hj'len
    have hrev : lines.reverse.getD (lines.length - 1 - j') [] =
        lines.getD j' [] := by
      rw [List.getD_eq_getElem _ _ hlt, List.getD_eq_getElem _ _ hj'lt]
      rw [List.getElem_reverse]
      congr 1
      omega
    rw [hrev] at hfoot'
    exact hnot hfoot'
  omega

/-- Concrete instance of `c2_footer_boundary`: a footer-prefixed line with a
blank line below it lies inside the parse boundary. -/
theorem c2_witness :
    1 < computeEnd ["a line".data, "Briefing saved: x".data, [],
      "Next update: y".data] :=
  c2_footer_boundary.2.1
    ["a line".data, "Briefing saved: x".data, [], "Next update: y".data]
    1 2 (by decide) (by decide) (by decide) (by decide)

theorem count_strongSub (c : Char) (hc1 : c ≠ '*')
    (hc2 : c ∉ "<strong>".data) (hc3 : c ∉ "</strong>".data) :
    ∀ (n : Nat) (t : Str), t.length ≤ n →
      (strongSub t).count c = t.count c := by
  intro n
  induction n with
  | zero =>
    intro t ht
    have : t = [] := List.length_eq_zero.mp (Nat.le_zero.mp ht)
    subst this
    rfl
  | succ n ih =>
    intro t ht
    cases t with
    | nil => rfl
    | cons c' rest =>
      simp only [List.length_cons] at ht
      by_cases hcond : c' = '*' ∧ rest.head? = some '*'
      · obtain ⟨hc1', hc2'⟩ := hcond
        subst hc1'
        obtain ⟨rest2, rfl⟩ : ∃ r2, rest = '*' :: r2 := by
          cases rest with
          | nil => simp at hc2'
          | cons d r2 =>
            simp only [List.head?_cons, Option.some.injEq] at hc2'
            subst hc2'
            exact ⟨r2, rfl⟩
        simp only [List.length_cons] at ht
        cases hsp : splitAtClose rest2 with
        | some pr =>
          obtain ⟨cont, rest'⟩ := pr
          rw [strongSub_open_some hsp]
          obtain ⟨heq, -, -⟩ := splitAtClose_eq hsp
          have hlen : rest'.length < rest2.length := splitAtClose_length hsp
          have hih := ih rest' (by omega)
          have hstar : ¬ ('*' = c) := fun h => hc1 h.symm
          subst heq
          simp only [List.count_append, List.count_cons,
            List.count_eq_zero.mpr hc2, List.count_eq_zero.mpr hc3, hih,
            beq_iff_eq, if_neg hstar]
          omega
        | none =>
          rw [strongSub_open_none hsp]
          simp only [List.count_cons]
          rw [ih ('*' :: rest2) (by simp only [List.length_cons]; omega)]
          simp only [List.count_cons]
      · rw [strongSub_pass hcond]
        rw [List.count_cons, List.count_cons, ih rest (by omega)]

/-- C3: `escape` rewrites the ampersand first and then the other three
special characters, acting character by character — so the entities the
later replacements introduce are never re-escaped — it leaves every other
character (the single quote included) unchanged, no raw `<`, `>` or `"`
survives, and every special character of the input shows up exactly as one
escaped entity (counted by its ampersand), with or without bold markers
around it. -/
theorem c3_escape_charwise (s : Str) :
    escape s = s.flatMap escChar ∧
    escChar '&' = "&amp;".data ∧
    escChar '<' = "&lt;".data ∧
    escChar '>' = "&gt;".data ∧
    escChar '"' = "&quot;".data ∧
    (∀ c : Char, specChar c = false → escChar c = [c]) ∧
    escChar (Char.ofNat 39) = [Char.ofNat 39] ∧
    '<' ∉ escape s ∧ '>' ∉ escape s ∧ '"' ∉ escape s ∧
    (escape s).count '&' = s.countP (fun c => specChar c) ∧
    (inline_format s).count '"' = 0 ∧
    (inline_format s).count '&' = s.countP (fun c => specChar c) := by
  refine ⟨escape_eq_flatMap s, rfl, rfl, rfl, rfl,
    fun c hc => escChar_of_not_spec hc, by decide,
    not_mem_escape_lt s, not_mem_escape_gt s, not_mem_escape_quot s,
    count_amp_escape s, ?_, ?_⟩
  · rw [inline_format,
      count_strongSub '"' (by decide) (by decide) (by decide)
        (escape s).length (escape s) le_rfl]
    exact List.count_eq_zero.mpr (not_mem_escape_quot s)
  · rw [inline_format,
      count_strongSub '&' (by decide) (by decide) (by decide)
        (escape s).length (escape s) le_rfl]
    exact count_amp_escape s

/-- Concrete instance of `c3_escape_charwise`: a non-special character is
left unchanged by the escape map. -/
theorem c3_witness : escChar 'q' = ['q'] :=
  (c3_escape_charwise []).2.2.2.2.2.1 'q' (by decide)

theorem splitAtClose_minimal :
    ∀ (s cont rest : Str), splitAtClose s = some (cont, rest) →
      ∀ c1 r1 : Str, s = c1 ++ '*' :: '*' :: r1 → c1 ≠ [] → '\n' ∉ c1 →
        cont.length ≤ c1.length := by
  intro s
  induction s with
  | nil =>
    intro cont rest h
    simp [splitAtClose, lazyUntil] at h
  | cons ch cs ih =>
    intro cont rest h c1 r1 heq hne hnl
    obtain ⟨d, c1', rfl⟩ : ∃ d c1', c1 = d :: c1' := by
      cases c1 with
      | nil => exact absurd rfl hne
      | cons d c1' => exact ⟨d, c1', rfl⟩
    simp only [List.cons_append, List.cons.injEq] at heq
    obtain ⟨rfl, heq'⟩ := heq
    have hnlch : ¬ ch = '\n' := by
      intro hx
      exact hnl (by simp [hx])
    rw [splitAtClose, lazyUntil, if_neg hnlch] at h
    by_cases hp : List.isPrefixOf ['*', '*'] cs
    · rw [if_pos (by exact hp)] at h
      simp only [Option.some.injEq, Prod.mk.injEq] at h
      obtain ⟨hc, -⟩ := h
      subst hc
      simp
    · rw [if_neg (by exact hp)] at h
      cases hrec : lazyUntil ['*', '*'] cs with
      | none => rw [hrec] at h; exact absurd h (by simp)
      | some pr =>
        obtain ⟨cont', rest'⟩ := pr
        rw [hrec] at h
        simp only [Option.some.injEq, Prod.mk.injEq] at h
        obtain ⟨hc, -⟩ := h
        subst hc
        cases c1' with
        | nil =>
          exfalso
          apply hp
          rw [heq']
          simp [List.isPrefixOf]
        | cons d2 c1'' =>
          have hih := ih cont' rest' hrec (d2 :: c1'') r1 heq'
            (by simp) (fun hx => hnl (by simp [hx]))
          simp only [List.length_cons] at hih ⊢
          omega

/-- C4: inline rendering escapes the text first and then wraps each
non-overlapping, non-greedy `**...**` pair that has a matching close in a
strong tag around the already-escaped content (the capture is the shortest
nonempty newline-free candidate), while a `**` with no later matching close
stays literal text; the example sentence renders with no loss of
surrounding text. -/
theorem c4_inline_bold :
    (∀ s : Str, inline_format s = strongSub (escape s)) ∧
    (∀ cs cont rest : Str, splitAtClose cs = some (cont, rest) →
      cs = cont ++ '*' :: '*' :: rest ∧ cont ≠ [] ∧ '\n' ∉ cont ∧
      (∀ c1 r1 : Str, cs = c1 ++ '*' :: '*' :: r1 → c1 ≠ [] → '\n' ∉ c1 →
        cont.length ≤ c1.length) ∧
      strongSub ('*' :: '*' :: cs) =
        "<strong>".data ++ cont ++ "</strong>".data ++ strongSub rest) ∧
    (∀ cs : Str, splitAtClose cs = none →
      strongSub ('*' :: '*' :: cs) = '*' :: strongSub ('*' :: cs)) ∧
    inline_format "Team wins **big game** tonight.".data =
      "Team wins <strong>big game</strong> tonight.".data := by
  refine ⟨fun s => rfl, ?_, fun cs h => strongSub_open_none h, by decide⟩
  intro cs cont rest h
  obtain ⟨heq, hne, hnl⟩ := splitAtClose_eq h
  exact ⟨heq, hne, hnl, splitAtClose_minimal cs cont rest h,
    strongSub_open_some h⟩

/-- Concrete instance of `c4_inline_bold`: an unmatched `**` stays
literal. -/
theorem c4_witness :
    strongSub ('*' :: '*' :: "abc".data) = '*' :: strongSub ('*' :: "abc".data) :=
  c4_inline_bold.2.2.1 "abc".data (by decide)

theorem extractLedeGo_at :
    ∀ (ls : List Str) (k : Nat) (cont : Str),
      (∀ j, j < k → firstStrong (ls.getD j []) = none) →
      k < ls.length →
      firstStrong (ls.getD k []) = some cont →
      extractLedeGo ls = ledeAdjust cont := by
  intro ls
  induction ls with
  | nil => intro k cont _ hk _; simp at hk
  | cons l rest ih =>
    intro k cont hnone hk hf
    cases k with
    | zero =>
      simp only [List.getD_cons_zero] at hf
      rw [extractLedeGo, hf]
    | succ k =>
      have h0 : firstStrong l = none := by
        have := hnone 0 (Nat.succ_pos k)
        simpa using this
      rw [extractLedeGo, h0]
      refine ih k cont ?_ (by simpa using hk) (by simpa using hf)
      intro j hj
      have := hnone (j + 1) (Nat.succ_lt_succ hj)
      simpa using this

theorem extractLedeGo_none :
    ∀ ls : List Str, (∀ l ∈ ls, firstStrong l = none) →
      extractLedeGo ls = [] := by
  intro ls
  induction ls with
  | nil => intro _; rfl
  | cons l rest ih =>
    intro h
    rw [extractLedeGo, h l (List.mem_cons_self l rest)]
    exact ih (fun x hx => h x (List.mem_cons_of_mem l hx))

/-- C5 counterexample: a 150-character bold span whose 117th character is a
period is truncated to 120 characters that do contain a period immediately
before the three-character ellipsis marker, contradicting the claim's ``no
trailing period before the ellipsis''. -/
theorem c5_counterexample :
    extract_lede ('*' :: '*' :: (List.replicate 116 'a' ++ '.' ::
        (List.replicate 33 'b' ++ ['*', '*']))) =
      List.replicate 116 'a' ++ "....".data ∧
    (List.replicate 116 'a' ++ '.' :: List.replicate 33 'b' : Str).length = 150 ∧
    (List.replicate 116 'a' ++ "....".data : Str).length = 120 ∧
    (List.replicate 116 'a' ++ "....".data : Str).drop 116 = "....".data := by
  refine ⟨?_, by decide, by decide, by decide⟩
  decide

/-- C5 (amended): the summary extractor returns the first bold span found
scanning lines top to bottom (the title line included), strips one trailing
period, and truncates a result longer than 120 characters to its first 117
characters plus a three-character ellipsis marker — exactly 120 characters,
the last three being the marker, though the kept 117-character prefix may
itself end in a period; with no bold span anywhere the result is the empty
string. -/
theorem c5_lede_truncation (text : Str) (k : Nat) (cont : Str)
    (hk : ∀ j ∈ List.range k,
      firstStrong ((splitNl (pyStrip text)).getD j []) = none)
    (hkl : k < (splitNl (pyStrip text)).length)
    (hf : firstStrong ((splitNl (pyStrip text)).getD k []) = some cont) :
    extract_lede text = ledeAdjust cont ∧
    ledeAdjust cont =
      (if 120 <
          (if cont.getLast? = some '.' then cont.dropLast else cont).length
        then (if cont.getLast? = some '.' then cont.dropLast else cont).take 117
          ++ "...".data
        else (if cont.getLast? = some '.' then cont.dropLast else cont)) ∧
    (∀ h1 : Str, 120 < h1.length →
      (h1.take 117 ++ "...".data).length = 120 ∧
      (h1.take 117 ++ "...".data).drop 117 = "...".data) ∧
    (∀ t : Str, (∀ l ∈ splitNl (pyStrip t), firstStrong l = none) →
      extract_lede t = []) := by
  refine ⟨?_, rfl, ?_, ?_⟩
  · rw [extract_lede]
    exact extractLedeGo_at _ k cont
      (fun j hj => hk j (List.mem_range.mpr hj)) hkl hf
  · intro h1 h120
    constructor
    · simp only [List.length_append, List.length_take, List.length_cons,
        List.length_nil]
      omega
    · have hlen : (h1.take 117).length = 117 := by
        rw [List.length_take]
        omega
      rw [List.drop_left' hlen]
  · intro t ht
    rw [extract_lede]
    exact extractLedeGo_none _ ht

/-- Concrete instance of `c5_lede_truncation`: the headline comes from the
first line holding a bold span, with one trailing period stripped. -/
theorem c5_witness :
    extract_lede "no bold here\n**Found headline.** rest".data =
      ledeAdjust "Found headline.".data :=
  (c5_lede_truncation "no bold here\n**Found headline.** rest".data 1
    "Found headline.".data (by decide) (by decide) (by decide)).1

/-- C6 counterexample: the citation branch removes the marker glyphs
everywhere in the line, not only the leading one, so a line carrying a
second glyph inside does not keep ``the rest of the line unchanged''. -/
theorem c6_counterexample :
    parseBlocks "📰 Star 📄 Ledger".data =
      [Block.citation "Star  Ledger".data] ∧
    "Star  Ledger".data ≠ "Star 📄 Ledger".data := by
  exact ⟨by decide, by decide⟩

/-- C6 (amended): a line inside the boundary starting with the newspaper or
page glyph becomes a Citation block whose text is the line with every
occurrence of the two marker glyphs removed and the ends whitespace-trimmed;
the example line yields the expected citation. -/
theorem c6_citation_strip (fuel : Nat) (lines : List Str) (endB i : Nat)
    (h : i < endB) (hb : ¬ (pyStrip (lines.getD i [])).isEmpty = true)
    (hr : ¬ isRule (pyStrip (lines.getD i [])) = true)
    (hcit : isCitStart (pyStrip (lines.getD i [])) = true) :
    parseAux (fuel + 1) lines endB i =
      Block.citation (citText (pyStrip (lines.getD i []))) ::
        parseAux fuel lines endB (i + 1) ∧
    citText (pyStrip (lines.getD i [])) =
      pyStrip (replace1 pageGlyph [] (replace1 newspaperGlyph []
        (pyStrip (lines.getD i [])))) ∧
    parseBlocks "📰 Arizona Daily Star".data =
      [Block.citation "Arizona Daily Star".data] :=
  ⟨parseAux_citation fuel lines endB i h hb hr hcit, rfl, by decide⟩

/-- Concrete instance of `c6_citation_strip`. -/
theorem c6_witness :
    parseAux 2 ["📰 Arizona Daily Star".data] 1 0 =
      Block.citation (citText (pyStrip "📰 Arizona Daily Star".data)) ::
        parseAux 1 ["📰 Arizona Daily Star".data] 1 1 :=
  (c6_citation_strip 1 ["📰 Arizona Daily Star".data] 1 0
    (by decide) (by decide) (by decide) (by decide)).1

/-- C7: classification runs Rule → Citation → Heading → Paragraph with the
first match winning, so a non-blank line inside the boundary that begins
with a pictographic character, is not a rule, not a citation, and does not
start with `**`, becomes a Heading carrying the entire line verbatim and is
rendered with escaping only; the example line yields the expected heading. -/
theorem c7_heading_order (fuel : Nat) (lines : List Str) (endB i : Nat)
    (h : i < endB) (hb : ¬ (pyStrip (lines.getD i [])).isEmpty = true)
    (hr : ¬ isRule (pyStrip (lines.getD i [])) = true)
    (hcit : ¬ isCitStart (pyStrip (lines.getD i [])) = true)
    (hpic : isPictoStart (pyStrip (lines.getD i [])) = true)
    (hbb : ¬ "**".data.isPrefixOf (pyStrip (lines.getD i [])) = true) :
    parseAux (fuel + 1) lines endB i =
      Block.heading (pyStrip (lines.getD i [])) ::
        parseAux fuel lines endB (i + 1) ∧
    renderBlock (Block.heading (pyStrip (lines.getD i []))) =
      "<h2>".data ++ escape (pyStrip (lines.getD i [])) ++ "</h2>".data ∧
    parseBlocks "🏛️ Government".data = [Block.heading "🏛️ Government".data] ∧
    md_to_html "🏛️ Government".data = "<h2>🏛️ Government</h2>".data := by
  have hh : isHeadStart (pyStrip (lines.getD i [])) = true := by
    rw [isHeadStart, hpic]
    simp only [Bool.true_and, Bool.not_eq_true']
    exact Bool.not_eq_true _ ▸ (Bool.eq_false_iff.mpr hbb)
  exact ⟨parseAux_heading fuel lines endB i h hb hr hcit hh, rfl,
    by decide, by decide⟩

/-- Concrete instance of `c7_heading_order`. -/
theorem c7_witness :
    parseAux 2 ["🏛️ Government".data] 1 0 =
      Block.heading (pyStrip "🏛️ Government".data) ::
        parseAux 1 ["🏛️ Government".data] 1 1 :=
  (c7_heading_order 1 ["🏛️ Government".data] 1 0
    (by decide) (by decide) (by decide) (by decide) (by decide) (by decide)).1

theorem collectOne_eq_none (f : FileEntry) :
    collectOne f = none ↔
      ∃ ds : Str, findDate f.stem = some ds ∧ strptimeYmd ds = none := by
  cases hd : findDate f.stem with
  | none =>
    simp only [collectOne, hd]
    constructor
    · intro h; exact absurd h (by simp)
    · rintro ⟨ds, hds, -⟩; exact absurd hds (by simp)
  | some ds =>
    cases hs : strptimeYmd ds with
    | none =>
      simp only [collectOne, hd, hs]
      exact ⟨fun _ => ⟨ds, rfl, hs⟩, fun _ => by trivial⟩
    | some dt =>
      simp only [collectOne, hd, hs]
      constructor
      · intro h; exact absurd h (by simp)
      · rintro ⟨ds', hds', hs'⟩
        rw [Option.some.injEq] at hds'
        subst hds'
        exact absurd hs (by simp [hs'])

theorem collectFiles_eq_none :
    ∀ files : List FileEntry,
      collectFiles files = none ↔
        ∃ f ∈ files, ∃ ds : Str, findDate f.stem = some ds ∧
          strptimeYmd ds = none := by
  intro files
  induction files with
  | nil => simp [collectFiles]
  | cons f rest ih =>
    cases hc : collectOne f with
    | none =>
      simp only [collectFiles, hc]
      constructor
      · intro _
        obtain ⟨ds, hds, hs⟩ := (collectOne_eq_none f).mp hc
        exact ⟨f, List.mem_cons_self f rest, ds, hds, hs⟩
      · intro _
        trivial
    | some po =>
      have hcnot : ¬ (∃ ds : Str, findDate f.stem = some ds ∧
          strptimeYmd ds = none) := by
        intro hex
        rw [← collectOne_eq_none f, hc] at hex
        exact absurd hex (by simp)
      cases po with
      | none =>
        simp only [collectFiles, hc]
        rw [ih]
        constructor
        · rintro ⟨g, hg, hds⟩
          exact ⟨g, List.mem_cons_of_mem f hg, hds⟩
        · rintro ⟨g, hg, hds⟩
          rcases List.mem_cons.mp hg with rfl | hg
          · exact absurd hds hcnot
          · exact ⟨g, hg, hds⟩
      | some p =>
        simp only [collectFiles, hc]
        cases hr : collectFiles rest with
        | none =>
          constructor
          · intro _
            obtain ⟨g, hg, hds⟩ := ih.mp hr
            exact ⟨g, List.mem_cons_of_mem f hg, hds⟩
          · intro _
            trivial
        | some ps =>
          constructor
          · intro h
            exact absurd h (by simp)
          · rintro ⟨g, hg, hds⟩
            rcases List.mem_cons.mp hg with rfl | hg
            · exact absurd hds hcnot
            · have hx := ih.mpr ⟨g, hg, hds⟩
              rw [hr] at hx
              exact absurd hx (by simp)

/-- C8 counterexample: a posts-directory file whose name carries the
date-shaped substring `2026-13-01` makes `datetime.strptime` raise an
uncaught `ValueError`, so metadata recovery is fatal there; and the
first-strong-span fallback strips every trailing period, not one. -/
theorem c8_counterexample :
    collect_existing_posts (some [⟨"brief-2026-13-01".data, []⟩]) = none ∧
    recoverLede "<p><strong>Huh...</strong></p>".data = "Huh".data ∧
    "Huh".data ≠ "Huh..".data := by
  exact ⟨by decide, by decide, by decide⟩

/-- C8 (amended): a missing posts directory yields the empty list, a
candidate file without a date-shaped substring is silently skipped, and the
lede falls back from the marker tag to the first strong span (all trailing
periods stripped) to the empty string; recovery fails exactly when some
candidate file's first date-shaped substring is not a valid calendar
date. -/
theorem c8_recovery_robustness :
    collect_existing_posts none = some [] ∧
    (∀ (stem content : Str) (rest : List FileEntry),
      findDate stem = none →
      collect_existing_posts (some (⟨stem, content⟩ :: rest)) =
        collect_existing_posts (some rest)) ∧
    (∀ content g : Str, searchLedeTag content = some g →
      recoverLede content = g) ∧
    (∀ content g : Str, searchLedeTag content = none →
      searchStrong content = some g →
      recoverLede content = rstripDots g) ∧
    (∀ content : Str, searchLedeTag content = none →
      searchStrong content = none → recoverLede content = []) ∧
    (∀ files : List FileEntry,
      collect_existing_posts (some files) = none ↔
        ∃ f ∈ files, ∃ ds : Str, findDate f.stem = some ds ∧
          strptimeYmd ds = none) := by
  refine ⟨rfl, ?_, ?_, ?_, ?_, fun files => collectFiles_eq_none files⟩
  · intro stem content rest hnd
    simp only [collect_existing_posts, collectFiles, collectOne, hnd]
  · intro content g h
    rw [recoverLede, h]
  · intro content g h1 h2
    rw [recoverLede, h1, h2]
  · intro content h1 h2
    rw [recoverLede, h1, h2]

/-- Concrete instance of `c8_recovery_robustness`: a dateless file is
skipped without error. -/
theorem c8_witness :
    collect_existing_posts (some [⟨"style-backup".data, "junk".data⟩]) =
      collect_existing_posts (some []) :=
  c8_recovery_robustness.2.1 "style-backup".data "junk".data [] (by decide)

theorem escChar_length_pos (c : Char) : 1 ≤ (escChar c).length := by
  by_cases h : specChar c = true
  · simp only [specChar, Bool.or_eq_true, beq_iff_eq] at h
    rcases h with ((rfl | rfl) | rfl) | rfl <;> decide
  · rw [escChar_of_not_spec (Bool.eq_false_iff.mpr h)]
    simp

theorem escChar_length_spec {c : Char} (h : specChar c = true) :
    4 ≤ (escChar c).length := by
  simp only [specChar, Bool.or_eq_true, beq_iff_eq] at h
  rcases h with ((rfl | rfl) | rfl) | rfl <;> decide

theorem escape_length_ge (s : Str) : s.length ≤ (escape s).length := by
  induction s with
  | nil => simp [escape_nil]
  | cons c rest ih =>
    rw [escape_cons, List.length_append, List.length_cons]
    have := escChar_length_pos c
    omega

theorem escape_length_lt {s : Str} (h : ∃ c ∈ s, specChar c = true) :
    s.length < (escape s).length := by
  induction s with
  | nil => simp at h
  | cons c rest ih =>
    rw [escape_cons, List.length_append, List.length_cons]
    obtain ⟨c', hm, hspec⟩ := h
    rcases List.mem_cons.mp hm with rfl | hm
    · have h4 := escChar_length_spec hspec
      have := escape_length_ge rest
      omega
    · have := ih ⟨c', hm, hspec⟩
      have := escChar_length_pos c
      omega

theorem rstripDots_decomp (s : Str) :
    ∃ k : Nat, s = rstripDots s ++ List.replicate k '.' := by
  refine ⟨(s.reverse.takeWhile (fun c => c == '.')).length, ?_⟩
  rw [rstripDots]
  conv_lhs => rw [← s.reverse_reverse, ← List.takeWhile_append_dropWhile
    (p := fun c => c == '.') (l := s.reverse)]
  rw [List.reverse_append]
  congr 1
  have hall : ∀ c ∈ s.reverse.takeWhile (fun c => c == '.'), c = '.' := by
    intro c hc
    have := List.mem_takeWhile_imp hc
    simpa using this
  rw [List.eq_replicate_iff.mpr ⟨by rw [List.length_reverse],
    fun c hc => hall c (List.mem_reverse.mp hc)⟩]

theorem infix_drop_last_dot {u w : Str} (hnd : '.' ∉ u)
    (h : u <:+: w ++ ['.']) : u <:+: w := by
  by_cases hu : u = []
  · subst hu
    exact ⟨[], w, by simp⟩
  · obtain ⟨p, q, hpq⟩ := h
    rcases List.eq_nil_or_concat q with rfl | ⟨q', x', rfl⟩
    · obtain ⟨u', lst, rfl⟩ := (List.eq_nil_or_concat u).resolve_left hu
      simp only [List.concat_eq_append, List.append_nil] at hpq
      rw [← List.append_assoc] at hpq
      obtain ⟨-, hl⟩ := List.append_inj' hpq (by simp)
      have hlst : lst = '.' := by simpa using hl
      subst hlst
      exact absurd (by simp [List.concat_eq_append]) hnd
    · simp only [List.concat_eq_append] at hpq
      have hpq2 : (p ++ u ++ q') ++ [x'] = w ++ ['.'] := by
        simpa [List.append_assoc] using hpq
      obtain ⟨hmain, -⟩ := List.append_inj' hpq2 (by simp)
      exact ⟨p, q', hmain⟩

theorem infix_of_infix_append_dots {u : Str} (hnd : '.' ∉ u) :
    ∀ (b a : Str), (∀ c ∈ b, c = '.') → u <:+: a ++ b → u <:+: a := by
  intro b
  induction b using List.reverseRecOn with
  | nil => intro a _ h; simpa using h
  | append_singleton bs x ih =>
    intro a hdots h
    have hx : x = '.' := hdots x (by simp)
    subst hx
    rw [← List.append_assoc] at h
    have h2 : u <:+: a ++ bs := infix_drop_last_dot hnd h
    exact ih a (fun c hc => hdots c (by simp [hc])) h2

theorem mem_of_infix_dotfree {u s : Str} (h : u <:+: s) (hnd : '.' ∉ u) :
    u <:+: rstripDots s := by
  obtain ⟨k, hk⟩ := rstripDots_decomp s
  rw [hk] at h
  exact infix_of_infix_append_dots hnd (List.replicate k '.') (rstripDots s)
    (fun c hc => (List.eq_of_mem_replicate hc)) h

theorem escape_infix_mono {u v : Str} (h : u <:+: v) :
    escape u <:+: escape v := by
  obtain ⟨a, b, rfl⟩ := h
  rw [escape_append, escape_append]
  exact ⟨escape a, escape b, rfl⟩

theorem amp_entity_mid {c0 : Str} (h : '&' ∈ c0) :
    "&amp;".data <:+: escape c0 := by
  obtain ⟨p, q, rfl⟩ := List.append_of_mem h
  refine ⟨escape p, escape q, ?_⟩
  rw [escape_append, escape_cons]
  have he : escChar '&' = "&amp;".data := by decide
  rw [he, List.append_assoc]

/-- C10: escaping is not idempotent — a second escape changes any string
holding a special character — and the pipeline escapes recovered ledes
twice: the first-strong-span fallback recovers already-escaped HTML from
the rendered post file and `render_index` escapes it again, so an ampersand
in a previously rendered post's first bold span reaches the rebuilt index
entry double-escaped, as `&amp;amp;`. -/
theorem c10_double_escape :
    (∀ s : Str, (∃ c ∈ s, specChar c = true) →
      escape (escape s) ≠ escape s) ∧
    (∀ (content c0 : Str) (d : Date) (slug : Str),
      searchLedeTag content = none →
      searchStrong content = some (escape c0) →
      '&' ∈ c0 →
      "&amp;amp;".data <:+: escape (recoverLede content) ∧
      "&amp;amp;".data <:+:
        renderIndexEntry ⟨d, slug, recoverLede content⟩) := by
  constructor
  · intro s hs
    have hamp : '&' ∈ escape s := by
      have hc : 0 < (escape s).count '&' := by
        rw [count_amp_escape]
        exact List.countP_pos.mpr hs
      exact List.count_pos_iff_mem.mp hc
    have hlt : (escape s).length < (escape (escape s)).length :=
      escape_length_lt ⟨'&', hamp, by decide⟩
    intro heq
    rw [heq] at hlt
    omega
  · intro content c0 d slug h1 h2 hamp
    have hrec : recoverLede content = rstripDots (escape c0) := by
      rw [recoverLede, h1, h2]
    have hinf : "&amp;".data <:+: rstripDots (escape c0) :=
      mem_of_infix_dotfree (amp_entity_mid hamp) (by decide)
    have hinf2 : "&amp;amp;".data <:+: escape (rstripDots (escape c0)) := by
      have := escape_infix_mono hinf
      have heq : escape "&amp;".data = "&amp;amp;".data := by decide
      rwa [heq] at this
    rw [hrec]
    refine ⟨hinf2, ?_⟩
    have hmid : escape (rstripDots (escape c0)) <:+:
        renderIndexEntry ⟨d, slug, rstripDots (escape c0)⟩ := by
      refine ⟨"<li>\n<span class=\"post-date\">".data ++ format_date_short d
          ++ "</span>\n<a href=\"posts/".data ++ slug ++ ".html\">".data
          ++ format_date_long d ++ "</a>\n<p class=\"post-lede\">".data,
        "</p>\n</li>".data, ?_⟩
      simp [renderIndexEntry, List.append_assoc]
    exact hinf2.trans hmid

/-- Concrete instance of `c10_double_escape`: a recovered lede whose span
held an ampersand is double-escaped in the rebuilt index entry. -/
theorem c10_witness :
    escape (escape "&".data) ≠ escape "&".data ∧
    "&amp;amp;".data <:+:
      escape (recoverLede "<p><strong>A &amp; B</strong></p>".data) :=
  ⟨c10_double_escape.1 "&".data ⟨'&', by decide, by decide⟩,
   ((c10_double_escape.2 "<p><strong>A &amp; B</strong></p>".data
      "A & B".data ⟨2026, 2, 18⟩ [] (by decide) (by decide) (by decide)).1)⟩

/-- C9 counterexample: hypotheses of the round-trip claim hold for the
briefing `**Hi..**` — its only bold span sits in a paragraph line, holds no
special character and no further `**`, and is short — yet recovery returns
`Hi` while the summary extractor returns `Hi.`: `rstrip(".")` strips both
periods where `extract_lede` strips one. -/
theorem c9_counterexample :
    extract_lede "**Hi..**".data = "Hi.".data ∧
    recoverLede (render_post ⟨2026, 2, 18⟩ (md_to_html "**Hi..**".data)) =
      "Hi".data ∧
    "Hi".data ≠ "Hi.".data := by
  refine ⟨by decide, by decide, by decide⟩

theorem splitNl_ne_nil : ∀ s : Str, splitNl s ≠ [] := by
  intro s
  cases s with
  | nil => simp [splitNl]
  | cons c rest =>
    rw [splitNl]
    by_cases hc : c = '\n'
    · simp [hc]
    · rw [if_neg hc]
      cases h : splitNl rest <;> simp

theorem splitNl_no_newline : ∀ s : Str, ∀ l ∈ splitNl s, '\n' ∉ l := by
  intro s
  induction s with
  | nil =>
    intro l hl
    simp only [splitNl, List.mem_singleton] at hl
    subst hl
    simp
  | cons c rest ih =>
    intro l hl
    rw [splitNl] at hl
    by_cases hc : c = '\n'
    · rw [if_pos hc] at hl
      rcases List.mem_cons.mp hl with rfl | hl
      · simp
      · exact ih l hl
    · rw [if_neg hc] at hl
      cases heq : splitNl rest with
      | nil => exact absurd heq (splitNl_ne_nil rest)
      | cons l0 ls =>
        rw [heq] at hl
        rcases List.mem_cons.mp hl with rfl | hl
        · intro hmem
          rcases List.mem_cons.mp hmem with h | h
          · exact hc h.symm
          · exact ih l0 (by rw [heq]; exact List.mem_cons_self _ _) h
        · exact ih l (by rw [heq]; exact List.mem_cons_of_mem _ hl)

theorem mem_pyStrip_sub {c : Char} {s : Str} (h : c ∈ pyStrip s) : c ∈ s := by
  rw [pyStrip] at h
  rw [List.mem_reverse] at h
  have h1 := List.dropWhile_sublist (l := (s.dropWhile isPySpace).reverse)
    (p := isPySpace)
  have h2 := h1.mem h
  rw [List.mem_reverse] at h2
  exact (List.dropWhile_sublist (l := s) (p := isPySpace)).mem h2

theorem pyStrip_decomp (s : Str) :
    ∃ w1 w2 : Str, s = w1 ++ pyStrip s ++ w2 ∧
      (∀ c ∈ w1, isPySpace c = true) ∧ (∀ c ∈ w2, isPySpace c = true) := by
  refine ⟨s.takeWhile isPySpace,
    ((s.dropWhile isPySpace).reverse.takeWhile isPySpace).reverse, ?_, ?_, ?_⟩
  · have hmid : pyStrip s ++
        ((s.dropWhile isPySpace).reverse.takeWhile isPySpace).reverse =
        s.dropWhile isPySpace := by
      rw [pyStrip, ← List.reverse_append, List.takeWhile_append_dropWhile,
        List.reverse_reverse]
    have hfull : List.takeWhile isPySpace s ++ (pyStrip s ++
        ((s.dropWhile isPySpace).reverse.takeWhile isPySpace).reverse) = s := by
      rw [hmid, List.takeWhile_append_dropWhile]
    rw [← List.append_assoc] at hfull
    exact hfull.symm
  · intro c hc
    exact List.mem_takeWhile_imp hc
  · intro c hc
    rw [List.mem_reverse] at hc
    exact List.mem_takeWhile_imp hc

theorem isPySpace_ne_star {c : Char} (h : isPySpace c = true) : c ≠ '*' := by
  intro hc
  subst hc
  simp [isPySpace] at h

theorem firstStrong_none_of_no_star {s : Str} (h : '*' ∉ s) :
    firstStrong s = none := by
  induction s with
  | nil => rfl
  | cons c rest ih =>
    have hc : ¬(c = '*' ∧ rest.head? = some '*') := by
      rintro ⟨rfl, -⟩
      exact h (List.mem_cons_self _ _)
    rw [firstStrong_pass hc]
    exact ih (fun hm => h (List.mem_cons_of_mem c hm))

theorem firstStrong_nostar_prefix {u : Str} (h : '*' ∉ u) :
    ∀ w : Str, firstStrong (u ++ w) = firstStrong w := by
  induction u with
  | nil => intro w; rfl
  | cons c rest ih =>
    intro w
    have hc : ¬(c = '*' ∧ (rest ++ w).head? = some '*') := by
      rintro ⟨rfl, -⟩
      exact h (List.mem_cons_self _ _)
    rw [List.cons_append, firstStrong_pass hc]
    exact ih (fun hm => h (List.mem_cons_of_mem c hm)) w

theorem strongSub_nostar_prefix {u : Str} (h : '*' ∉ u) :
    ∀ w : Str, strongSub (u ++ w) = u ++ strongSub w := by
  induction u with
  | nil => intro w; rfl
  | cons c rest ih =>
    intro w
    have hc : ¬(c = '*' ∧ (rest ++ w).head? = some '*') := by
      rintro ⟨rfl, -⟩
      exact h (List.mem_cons_self _ _)
    rw [List.cons_append, strongSub_pass hc,
      ih (fun hm => h (List.mem_cons_of_mem c hm)) w, List.cons_append]

theorem strongSub_id_of_no_star {t : Str} (h : '*' ∉ t) : strongSub t = t := by
  have hx := strongSub_nostar_prefix h []
  rw [List.append_nil, strongSub_nil, List.append_nil] at hx
  exact hx

theorem mem_star_escChar {c : Char} (h : '*' ∈ escChar c) : c = '*' := by
  by_cases h1 : c = '&'
  · subst h1; exact absurd h (by decide)
  · by_cases h2 : c = '<'
    · subst h2; exact absurd h (by decide)
    · by_cases h3 : c = '>'
      · subst h3; exact absurd h (by decide)
      · by_cases h4 : c = '"'
        · subst h4; exact absurd h (by decide)
        · rw [escChar_of_not_spec (by simp [specChar, h1, h2, h3, h4])] at h
          rcases List.mem_singleton.mp h with rfl
          rfl

theorem escape_no_star {x : Str} (h : '*' ∉ x) : '*' ∉ escape x := by
  rw [escape_eq_flatMap]
  intro hm
  obtain ⟨c, hc, hmem⟩ := List.mem_flatMap.mp hm
  have := mem_star_escChar hmem
  subst this
  exact h hc

theorem escape_id_of_no_spec {x : Str} (h : ∀ ch ∈ x, specChar ch = false) :
    escape x = x := by
  rw [escape_eq_flatMap]
  induction x with
  | nil => rfl
  | cons c rest ih =>
    rw [List.flatMap_cons, escChar_of_not_spec (h c (List.mem_cons_self _ _))]
    rw [ih (fun ch hm => h ch (List.mem_cons_of_mem c hm))]
    rfl

theorem escape_star_star (x : Str) :
    escape ('*' :: '*' :: x) = '*' :: '*' :: escape x := by
  rw [escape_cons, escape_cons]
  rfl

theorem splitAtClose_none_pos :
    ∀ x : Str, '\n' ∉ x → splitAtClose x = none →
      ∀ p q : Str, x = p ++ '*' :: '*' :: q → p = [] := by
  intro x
  induction x with
  | nil =>
    intro _ _ p q hpq
    exact absurd hpq.symm (by simp)
  | cons ch cs ih =>
    intro hnl hnone p q hpq
    cases p with
    | nil => rfl
    | cons p0 p' =>
      exfalso
      simp only [List.cons_append, List.cons.injEq] at hpq
      obtain ⟨rfl, hcs⟩ := hpq
      rw [splitAtClose, lazyUntil] at hnone
      rw [if_neg (fun hx => hnl (by simp [hx]))] at hnone
      by_cases hp : List.isPrefixOf ['*', '*'] cs
      · rw [if_pos hp] at hnone
        exact absurd hnone (by simp)
      · rw [if_neg hp] at hnone
        cases hrec : lazyUntil ['*', '*'] cs with
        | some pr => rw [hrec] at hnone; exact absurd hnone (by simp)
        | none =>
          have hp' : p' = [] := ih (fun hm => hnl (List.mem_cons_of_mem _ hm))
            hrec p' q hcs
          subst hp'
          apply hp
          rw [hcs]
          simp [List.isPrefixOf]

theorem stars_isPrefixOf_congr (u : Str) (hu : u ≠ []) (a b : Str) :
    List.isPrefixOf ['*', '*'] (u ++ '*' :: a) =
      List.isPrefixOf ['*', '*'] (u ++ '*' :: b) := by
  cases u with
  | nil => exact absurd rfl hu
  | cons k1 u' =>
    cases u' with
    | nil => simp [List.isPrefixOf]
    | cons k2 u'' => simp [List.isPrefixOf]

theorem splitAtClose_self :
    ∀ x cont r : Str, splitAtClose x = some (cont, r) →
      ∀ w : Str, splitAtClose (cont ++ '*' :: '*' :: w) = some (cont, w) := by
  intro x
  induction x with
  | nil =>
    intro cont r h
    exact absurd h (by simp [splitAtClose, lazyUntil])
  | cons ch cs ih =>
    intro cont r h w
    rw [splitAtClose, lazyUntil] at h
    by_cases hch : ch = '\n'
    · rw [if_pos hch] at h
      exact absurd h (by simp)
    · rw [if_neg hch] at h
      by_cases hp : List.isPrefixOf ['*', '*'] cs
      · rw [if_pos hp] at h
        simp only [Option.some.injEq, Prod.mk.injEq] at h
        obtain ⟨hc, -⟩ := h
        subst hc
        rw [List.cons_append, List.nil_append, splitAtClose, lazyUntil,
          if_neg hch]
        rw [if_pos (by simp [List.isPrefixOf] :
          List.isPrefixOf ['*', '*'] ('*' :: '*' :: w) = true)]
        simp
      · rw [if_neg hp] at h
        cases hrec : lazyUntil ['*', '*'] cs with
        | none => rw [hrec] at h; exact absurd h (by simp)
        | some pr =>
          obtain ⟨cont', r'⟩ := pr
          rw [hrec] at h
          simp only [Option.some.injEq, Prod.mk.injEq] at h
          obtain ⟨hc, hr⟩ := h
          subst hc
          subst hr
          obtain ⟨hcs, hcne, -⟩ :=
            splitAtClose_eq hrec
          have hnp : ¬ List.isPrefixOf ['*', '*']
              (cont' ++ '*' :: '*' :: w) = true := by
            intro hpx
            apply hp
            rw [hcs]
            have hcongr := stars_isPrefixOf_congr cont' hcne
              ('*' :: w) ('*' :: r')
            rw [← hcongr]
            exact hpx
          have ihx : lazyUntil ['*', '*'] (cont' ++ '*' :: '*' :: w) =
              some (cont', w) := ih cont' r' hrec w
          rw [List.cons_append, splitAtClose, lazyUntil, if_neg hch,
            if_neg hnp, ihx]

theorem TwoStarFree_of_short {x : Str} (h : x.length ≤ 1) : TwoStarFree x := by
  intro p q heq
  subst heq
  simp only [List.length_append, List.length_cons] at h
  omega

theorem TwoStarFree_tail {ch : Char} {y : Str} (h : TwoStarFree (ch :: y)) :
    TwoStarFree y := by
  intro p q heq
  exact h (ch :: p) q (by rw [heq]; rfl)

theorem TwoStarFree_cons {ch : Char} {y : Str} (h : TwoStarFree y)
    (hh : ch = '*' → y.head? ≠ some '*') : TwoStarFree (ch :: y) := by
  intro p q heq
  cases p with
  | nil =>
    simp only [List.nil_append, List.cons.injEq] at heq
    obtain ⟨rfl, heq'⟩ := heq
    have := hh rfl
    rw [heq'] at this
    simp at this
  | cons p0 p' =>
    simp only [List.cons_append, List.cons.injEq] at heq
    exact h p' q heq.2

theorem TwoStarFree_nostar_append {u v : Str} (hu : '*' ∉ u)
    (hv : TwoStarFree v) : TwoStarFree (u ++ v) := by
  induction u with
  | nil => simpa using hv
  | cons a u' ih =>
    rw [List.cons_append]
    refine TwoStarFree_cons (ih (fun hm => hu (List.mem_cons_of_mem a hm))) ?_
    rintro rfl
    exact absurd (List.mem_cons_self _ _) hu

theorem escChar_ne_nil (c : Char) : escChar c ≠ [] := by
  have := escChar_length_pos c
  intro h
  rw [h] at this
  simp at this

theorem escChar_head_star {c : Char} (h : (escChar c).head? = some '*') :
    c = '*' := by
  by_cases h1 : c = '&'
  · subst h1; exact absurd h (by decide)
  · by_cases h2 : c = '<'
    · subst h2; exact absurd h (by decide)
    · by_cases h3 : c = '>'
      · subst h3; exact absurd h (by decide)
      · by_cases h4 : c = '"'
        · subst h4; exact absurd h (by decide)
        · rw [escChar_of_not_spec (by simp [specChar, h1, h2, h3, h4])] at h
          simpa using h

theorem escape_head_star {y : Str} (h : (escape y).head? = some '*') :
    y.head? = some '*' := by
  cases y with
  | nil => rw [escape_nil] at h; exact absurd h (by simp)
  | cons d y' =>
    rw [escape_cons] at h
    cases hd : escChar d with
    | nil => exact absurd hd (escChar_ne_nil d)
    | cons e es =>
      rw [hd, List.cons_append, List.head?_cons, Option.some.injEq] at h
      subst h
      have : d = '*' := escChar_head_star (by rw [hd]; rfl)
      subst this
      rfl

theorem TwoStarFree_escape_concat :
    ∀ x : Str, TwoStarFree (x ++ ['*']) → TwoStarFree (escape x ++ ['*']) := by
  intro x
  induction x with
  | nil => intro h; simpa [escape_nil] using h
  | cons ch x' ih =>
    intro h
    have htail : TwoStarFree (x' ++ ['*']) := TwoStarFree_tail (by simpa using h)
    have hih := ih htail
    rw [escape_cons, List.append_assoc]
    by_cases hch : ch = '*'
    · subst hch
      have hesc : escChar '*' = ['*'] := by decide
      rw [hesc, List.singleton_append]
      refine TwoStarFree_cons hih ?_
      intro _ hhead
      cases x' with
      | nil =>
        exact h [] [] (by simp)
      | cons d x'' =>
        have hne : escape (d :: x'') ≠ [] := by
          rw [escape_cons]
          intro hx
          exact escChar_ne_nil d (List.append_eq_nil.mp hx).1
        obtain ⟨g, gs, hg⟩ := List.exists_cons_of_ne_nil hne
        rw [hg, List.cons_append, List.head?_cons, Option.some.injEq] at hhead
        have hdstar : (d :: x'').head? = some '*' :=
          escape_head_star (y := d :: x'') (by rw [hg, hhead]; rfl)
        rw [List.head?_cons, Option.some.injEq] at hdstar
        subst hdstar
        exact h [] (x'' ++ ['*']) (by simp)
    · have hnostar : '*' ∉ escChar ch := fun hm => hch (mem_star_escChar hm)
      exact TwoStarFree_nostar_append hnostar hih

theorem firstStrong_decomp :
    ∀ (n : Nat) (s : Str), s.length ≤ n → '\n' ∉ s →
      ∀ c : Str, firstStrong s = some c →
      ∃ A B : Str, s = A ++ '*' :: '*' :: (c ++ '*' :: '*' :: B) ∧
        TwoStarFree (A ++ ['*']) ∧
        splitAtClose (c ++ '*' :: '*' :: B) = some (c, B) := by
  intro n
  induction n with
  | zero =>
    intro s hs _ c hf
    have : s = [] := List.length_eq_zero.mp (Nat.le_zero.mp hs)
    subst this
    exact absurd hf (by simp [firstStrong, firstStrongAux])
  | succ n ih =>
    intro s hs hnl c hf
    cases s with
    | nil => exact absurd hf (by simp [firstStrong, firstStrongAux])
    | cons c0 rest =>
      simp only [List.length_cons] at hs
      by_cases hcond : c0 = '*' ∧ rest.head? = some '*'
      · obtain ⟨rfl, hc2⟩ := hcond
        obtain ⟨rest2, rfl⟩ : ∃ r2, rest = '*' :: r2 := by
          cases rest with
          | nil => simp at hc2
          | cons d r2 =>
            simp only [List.head?_cons, Option.some.injEq] at hc2
            subst hc2
            exact ⟨r2, rfl⟩
        simp only [List.length_cons] at hs
        cases hsp : splitAtClose rest2 with
        | some pr =>
          obtain ⟨cont, rest'⟩ := pr
          rw [firstStrong_open_some hsp, Option.some.injEq] at hf
          subst hf
          obtain ⟨heq, -, -⟩ := splitAtClose_eq hsp
          refine ⟨[], rest', by rw [← heq]; rfl,
            TwoStarFree_of_short (by simp), ?_⟩
          rw [← heq]
          exact hsp
        | none =>
          exfalso
          rw [firstStrong_open_none hsp] at hf
          have hnl2 : '\n' ∉ ('*' :: rest2) := by
            intro hm
            exact hnl (List.mem_cons_of_mem _ hm)
          obtain ⟨A', B, heq, -, -⟩ := ih ('*' :: rest2)
            (by simp only [List.length_cons]; omega) hnl2 c hf
          have hnlr : '\n' ∉ rest2 := by
            intro hm
            exact hnl2 (List.mem_cons_of_mem _ hm)
          cases A' with
          | nil =>
            simp only [List.nil_append, List.cons.injEq] at heq
            obtain ⟨-, heq'⟩ := heq
            have := splitAtClose_none_pos rest2 hnlr hsp ('*' :: c) B
              (by simp [heq'])
            simp at this
          | cons a0 A'' =>
            simp only [List.cons_append, List.cons.injEq] at heq
            obtain ⟨-, heq'⟩ := heq
            cases A'' with
            | nil =>
              have := splitAtClose_none_pos rest2 hnlr hsp
                ('*' :: '*' :: c) B (by simp [heq'])
              simp at this
            | cons b A3 =>
              have := splitAtClose_none_pos rest2 hnlr hsp
                (b :: A3) (c ++ '*' :: '*' :: B) (by simp [heq'])
              simp at this
      · rw [firstStrong_pass hcond] at hf
        obtain ⟨A', B, heq, htsf, hsc⟩ := ih rest (by omega)
          (fun hm => hnl (List.mem_cons_of_mem _ hm)) c hf
        refine ⟨c0 :: A', B, by rw [heq]; rfl, ?_, hsc⟩
        rw [List.cons_append]
        refine TwoStarFree_cons htsf ?_
        rintro rfl hh
        apply hcond
        refine ⟨rfl, ?_⟩
        rw [heq]
        cases A' with
        | nil =>
          simp
        | cons b A'' =>
          simp only [List.cons_append, List.head?_cons, Option.some.injEq] at hh ⊢
          exact hh

theorem strongSub_at :
    ∀ A : Str, TwoStarFree (A ++ ['*']) →
      ∀ w : Str, strongSub (A ++ '*' :: '*' :: w) =
        A ++ strongSub ('*' :: '*' :: w) := by
  intro A
  induction A with
  | nil => intro _ w; rfl
  | cons a A' ih =>
    intro h w
    have htail : TwoStarFree (A' ++ ['*']) := TwoStarFree_tail (by simpa using h)
    have hcond : ¬(a = '*' ∧ (A' ++ '*' :: '*' :: w).head? = some '*') := by
      rintro ⟨rfl, hh⟩
      cases A' with
      | nil => exact h [] [] (by simp)
      | cons b A'' =>
        rw [List.cons_append, List.head?_cons, Option.some.injEq] at hh
        subst hh
        exact h [] (A'' ++ ['*']) (by simp)
    rw [List.cons_append, strongSub_pass hcond, ih htail w, List.cons_append]

theorem firstStrong_at :
    ∀ A : Str, TwoStarFree (A ++ ['*']) →
      ∀ w : Str, firstStrong (A ++ '*' :: '*' :: w) =
        firstStrong ('*' :: '*' :: w) := by
  intro A
  induction A with
  | nil => intro _ w; rfl
  | cons a A' ih =>
    intro h w
    have htail : TwoStarFree (A' ++ ['*']) := TwoStarFree_tail (by simpa using h)
    have hcond : ¬(a = '*' ∧ (A' ++ '*' :: '*' :: w).head? = some '*') := by
      rintro ⟨rfl, hh⟩
      cases A' with
      | nil => exact h [] [] (by simp)
      | cons b A'' =>
        rw [List.cons_append, List.head?_cons, Option.some.injEq] at hh
        subst hh
        exact h [] (A'' ++ ['*']) (by simp)
    rw [List.cons_append, firstStrong_pass hcond, ih htail w]

theorem ltSafeHead_not_lt {c : Char} (rest : Str) (hc : ¬ c = '<') :
    ltSafeHead c rest = true := by
  rw [ltSafeHead.eq_def, if_neg hc]

theorem ltSafe_cons (c : Char) (rest : Str) :
    ltSafe (c :: rest) = (ltSafeHead c rest && ltSafe rest) := rfl

theorem ltSafe_lt_elim {rest : Str} (h : ltSafe ('<' :: rest) = true) :
    ∃ c2 rest2, rest = c2 :: rest2 ∧ ¬ c2 = 's' := by
  rw [ltSafe_cons, Bool.and_eq_true, ltSafeHead.eq_def, if_pos rfl] at h
  cases rest with
  | nil => simp at h
  | cons c2 rest2 =>
    obtain ⟨h1, -⟩ := h
    simp only [Bool.not_eq_true', beq_eq_false_iff_ne, ne_eq] at h1
    exact ⟨c2, rest2, rfl, h1⟩

theorem ltSafe_tail {c : Char} {rest : Str} (h : ltSafe (c :: rest) = true) :
    ltSafe rest = true := by
  rw [ltSafe_cons, Bool.and_eq_true] at h
  exact h.2

theorem ltSafe_of_no_lt {u : Str} (h : '<' ∉ u) : ltSafe u = true := by
  induction u with
  | nil => rfl
  | cons c rest ih =>
    have hc : ¬ c = '<' := by
      rintro rfl
      exact h (List.mem_cons_self _ _)
    rw [ltSafe_cons, ltSafeHead_not_lt rest hc, Bool.true_and]
    exact ih (fun hm => h (List.mem_cons_of_mem c hm))

theorem ltSafeHead_append (c : Char) (rest v : Str)
    (h : ltSafeHead c rest = true) : ltSafeHead c (rest ++ v) = true := by
  by_cases hc : c = '<'
  · rw [ltSafeHead.eq_def, if_pos hc] at h ⊢
    cases rest with
    | nil => simp at h
    | cons c2 r2 => exact h
  · exact ltSafeHead_not_lt _ hc

theorem ltSafe_append {u v : Str} (hu : ltSafe u = true)
    (hv : ltSafe v = true) : ltSafe (u ++ v) = true := by
  induction u with
  | nil => simpa using hv
  | cons c u' ih =>
    rw [List.cons_append, ltSafe_cons, Bool.and_eq_true]
    rw [ltSafe_cons, Bool.and_eq_true] at hu
    exact ⟨ltSafeHead_append c u' v hu.1, ih hu.2⟩

theorem searchStrong_skip :
    ∀ u : Str, ltSafe u = true → ∀ v, searchStrong (u ++ v) = searchStrong v := by
  intro u
  induction u with
  | nil => intro _ v; rfl
  | cons c u' ih =>
    intro h v
    rw [List.cons_append, searchStrong]
    by_cases hc : c = '<'
    · subst hc
      obtain ⟨c2, u'', rfl, hc2⟩ := ltSafe_lt_elim h
      have hp : ¬ "<strong>".data.isPrefixOf ('<' :: (c2 :: u'' ++ v)) = true := by
        simp only [List.cons_append, List.isPrefixOf, Bool.and_eq_true,
          beq_iff_eq]
        rintro ⟨-, rfl, -⟩
        exact hc2 rfl
      rw [if_neg hp]
      exact ih (ltSafe_tail h) v
    · have hp : ¬ "<strong>".data.isPrefixOf (c :: (u' ++ v)) = true := by
        simp only [List.isPrefixOf, Bool.and_eq_true, beq_iff_eq]
        rintro ⟨rfl, -⟩
        exact hc rfl
      rw [if_neg hp]
      exact ih (ltSafe_tail h) v

theorem lazyUntil_close_found {c : Str} (V : Str) (hne : c ≠ [])
    (hnl : '\n' ∉ c) (hlt : '<' ∉ c) :
    lazyUntil "</strong>".data (c ++ ("</strong>".data ++ V)) = some (c, V) := by
  induction c with
  | nil => exact absurd rfl hne
  | cons x c' ih =>
    have hx : ¬ x = '\n' := by
      rintro rfl
      exact hnl (List.mem_cons_self _ _)
    rw [List.cons_append, lazyUntil, if_neg hx]
    cases c' with
    | nil =>
      rw [List.nil_append]
      rw [if_pos (List.isPrefixOf_iff_prefix.mpr ⟨V, rfl⟩)]
      rw [List.drop_left]
    | cons c2 c'' =>
      have hc2 : ¬ c2 = '<' := by
        rintro rfl
        exact hlt (List.mem_cons_of_mem _ (List.mem_cons_self _ _))
      have hp : ¬ "</strong>".data.isPrefixOf ((c2 :: c'') ++
          ("</strong>".data ++ V)) = true := by
        simp only [List.cons_append, List.isPrefixOf, Bool.and_eq_true,
          beq_iff_eq]
        rintro ⟨rfl, -⟩
        exact hc2 rfl
      rw [if_neg hp]
      rw [ih (by simp) (fun hm => hnl (List.mem_cons_of_mem _ hm))
        (fun hm => hlt (List.mem_cons_of_mem _ hm))]

theorem searchStrong_found {c : Str} (V : Str) (hne : c ≠ [])
    (hnl : '\n' ∉ c) (hlt : '<' ∉ c) :
    searchStrong ("<strong>".data ++ (c ++ ("</strong>".data ++ V))) =
      some c := by
  show searchStrong ('<' :: 's' :: 't' :: 'r' :: 'o' :: 'n' :: 'g' :: '>' ::
    (c ++ ("</strong>".data ++ V))) = some c
  rw [searchStrong]
  rw [if_pos (show "<strong>".data.isPrefixOf ('<' :: 's' :: 't' :: 'r' ::
    'o' :: 'n' :: 'g' :: '>' :: (c ++ ("</strong>".data ++ V))) = true from
    List.isPrefixOf_iff_prefix.mpr ⟨c ++ ("</strong>".data ++ V), rfl⟩)]
  have hdrop : List.drop 8 ('<' :: 's' :: 't' :: 'r' :: 'o' :: 'n' :: 'g' ::
      '>' :: (c ++ ("</strong>".data ++ V))) = c ++ ("</strong>".data ++ V) := rfl
  rw [hdrop, lazyUntil_close_found V hne hnl hlt]

theorem zip_self_any_false :
    ∀ lit tail : Str,
      (List.zip (lit ++ tail) lit).any (fun pr => !(pr.1 == pr.2)) = false := by
  intro lit
  induction lit with
  | nil => intro tail; simp
  | cons a lit' ih =>
    intro tail
    rw [List.cons_append, List.zip_cons_cons, List.any_cons]
    simp only [beq_self_eq_true, Bool.not_true, Bool.false_or]
    exact ih tail

theorem litSafeAt_of_isPrefixOf {lit t : Str} (h : lit.isPrefixOf t = true) :
    litSafeAt lit t = false := by
  obtain ⟨tail, htail⟩ := List.isPrefixOf_iff_prefix.mp h
  rw [litSafeAt, ← htail]
  exact zip_self_any_false lit tail

theorem litSafeAt_append {lit t : Str} (w : Str)
    (h : litSafeAt lit t = true) : litSafeAt lit (t ++ w) = true := by
  rw [litSafeAt] at h ⊢
  induction t generalizing lit with
  | nil => simp at h
  | cons a t' ih =>
    cases lit with
    | nil => simp at h
    | cons b lit' =>
      rw [List.zip_cons_cons, List.any_cons] at h
      show (List.zip (a :: (t' ++ w)) (b :: lit')).any
        (fun pr => !(pr.1 == pr.2)) = true
      rw [List.zip_cons_cons, List.any_cons]
      rcases Bool.or_eq_true_iff.mp h with h1 | h1
      · rw [h1]
        simp
      · rw [ih h1]
        simp

theorem litSafe_cons (lit : Str) (c : Char) (rest : Str) :
    litSafe lit (c :: rest) =
      ((if c = '<' then litSafeAt lit (c :: rest) else true) &&
        litSafe lit rest) := rfl

theorem litSafe_tail {lit : Str} {c : Char} {rest : Str}
    (h : litSafe lit (c :: rest) = true) : litSafe lit rest = true := by
  rw [litSafe_cons, Bool.and_eq_true] at h
  exact h.2

theorem litSafe_of_no_lt {lit u : Str} (h : '<' ∉ u) :
    litSafe lit u = true := by
  induction u with
  | nil => rfl
  | cons c rest ih =>
    have hc : ¬ c = '<' := by
      rintro rfl
      exact h (List.mem_cons_self _ _)
    rw [litSafe_cons, if_neg hc, Bool.true_and]
    exact ih (fun hm => h (List.mem_cons_of_mem c hm))

theorem litSafe_append {lit u v : Str} (hu : litSafe lit u = true)
    (hv : litSafe lit v = true) : litSafe lit (u ++ v) = true := by
  induction u with
  | nil => simpa using hv
  | cons c u' ih =>
    rw [litSafe_cons, Bool.and_eq_true] at hu
    rw [List.cons_append, litSafe_cons, Bool.and_eq_true]
    refine ⟨?_, ih hu.2⟩
    by_cases hc : c = '<'
    · rw [if_pos hc]
      have h1 := hu.1
      rw [if_pos hc] at h1
      have := litSafeAt_append (w := v) (t := c :: u') h1
      rwa [List.cons_append] at this
    · rw [if_neg hc]

theorem searchLedeTag_none :
    ∀ s : Str, litSafe ledeLit s = true → searchLedeTag s = none := by
  intro s
  induction s with
  | nil => intro _; rfl
  | cons c rest ih =>
    intro h
    rw [searchLedeTag]
    have hnp : ¬ ledeLit.isPrefixOf (c :: rest) = true := by
      intro hpx
      by_cases hc : c = '<'
      · have hat : litSafeAt ledeLit (c :: rest) = true := by
          rw [litSafe_cons, Bool.and_eq_true] at h
          have h1 := h.1
          rwa [if_pos hc] at h1
        rw [litSafeAt_of_isPrefixOf hpx] at hat
        exact absurd hat (by simp)
      · have : ledeLit = '<' :: "p class=\"post-lede\"".data := by decide
        rw [this] at hpx
        simp only [List.isPrefixOf, Bool.and_eq_true, beq_iff_eq] at hpx
        exact hc hpx.1.symm
    rw [if_neg hnp]
    exact ih (litSafe_tail h)

theorem litSafe_joinSep {lit sep : Str} (hsep : litSafe lit sep = true) :
    ∀ xs : List Str, (∀ x ∈ xs, litSafe lit x = true) →
      litSafe lit (joinSep sep xs) = true := by
  intro xs
  induction xs with
  | nil => intro _; rfl
  | cons x ys ih =>
    intro hall
    cases ys with
    | nil => exact hall x (List.mem_cons_self _ _)
    | cons y ys' =>
      rw [joinSep]
      refine litSafe_append (litSafe_append (hall x (List.mem_cons_self _ _))
        hsep) (ih ?_)
      intro z hz
      exact hall z (List.mem_cons_of_mem x hz)

theorem ltSafe_joinSep {sep : Str} (hsep : ltSafe sep = true) :
    ∀ xs : List Str, (∀ x ∈ xs, ltSafe x = true) →
      ltSafe (joinSep sep xs) = true := by
  intro xs
  induction xs with
  | nil => intro _; rfl
  | cons x ys ih =>
    intro hall
    cases ys with
    | nil => exact hall x (List.mem_cons_self _ _)
    | cons y ys' =>
      rw [joinSep]
      refine ltSafe_append (ltSafe_append (hall x (List.mem_cons_self _ _))
        hsep) (ih ?_)
      intro z hz
      exact hall z (List.mem_cons_of_mem x hz)

theorem litSafe_strongSub :
    ∀ (n : Nat) (t : Str), t.length ≤ n → '<' ∉ t →
      litSafe ledeLit (strongSub t) = true := by
  intro n
  induction n with
  | zero =>
    intro t ht _
    have : t = [] := List.length_eq_zero.mp (Nat.le_zero.mp ht)
    subst this
    rfl
  | succ n ih =>
    intro t ht hlt
    cases t with
    | nil => rfl
    | cons c rest =>
      simp only [List.length_cons] at ht
      by_cases hcond : c = '*' ∧ rest.head? = some '*'
      · obtain ⟨rfl, hc2⟩ := hcond
        obtain ⟨rest2, rfl⟩ : ∃ r2, rest = '*' :: r2 := by
          cases rest with
          | nil => simp at hc2
          | cons d r2 =>
            simp only [List.head?_cons, Option.some.injEq] at hc2
            subst hc2
            exact ⟨r2, rfl⟩
        simp only [List.length_cons] at ht
        cases hsp : splitAtClose rest2 with
        | some pr =>
          obtain ⟨cont, rest'⟩ := pr
          rw [strongSub_open_some hsp]
          obtain ⟨heq, -, -⟩ := splitAtClose_eq hsp
          have hlen := splitAtClose_length hsp
          have hltc : '<' ∉ cont := by
            intro hm
            apply hlt
            apply List.mem_cons_of_mem
            apply List.mem_cons_of_mem
            rw [heq]
            exact List.mem_append_left _ hm
          have hd1 : litSafe ledeLit "<strong>".data = true := by decide
          have hd2 : litSafe ledeLit "</strong>".data = true := by decide
          refine litSafe_append (litSafe_append (litSafe_append hd1
            (litSafe_of_no_lt hltc)) hd2) (ih rest' (by omega) ?_)
          intro hm
          apply hlt
          apply List.mem_cons_of_mem
          apply List.mem_cons_of_mem
          rw [heq]
          refine List.mem_append_right _ ?_
          exact List.mem_cons_of_mem _ (List.mem_cons_of_mem _ hm)
        | none =>
          rw [strongSub_open_none hsp]
          rw [litSafe_cons, if_neg (by decide), Bool.true_and]
          refine ih ('*' :: rest2) (by simp only [List.length_cons]; omega) ?_
          intro hm
          exact hlt (List.mem_cons_of_mem _ hm)
      · rw [strongSub_pass hcond]
        have hc : ¬ c = '<' := by
          rintro rfl
          exact hlt (List.mem_cons_self _ _)
        rw [litSafe_cons, if_neg hc, Bool.true_and]
        exact ih rest (by omega) (fun hm => hlt (List.mem_cons_of_mem _ hm))

theorem litSafe_renderBlock (b : Block) :
    litSafe ledeLit (renderBlock b) = true := by
  cases b with
  | rule => decide
  | citation t =>
    have hd1 : litSafe ledeLit "<p class=\"source\">".data = true := by decide
    have hd2 : litSafe ledeLit "</p>".data = true := by decide
    exact litSafe_append (litSafe_append hd1
      (litSafe_of_no_lt (not_mem_escape_lt t))) hd2
  | heading t =>
    have hd1 : litSafe ledeLit "<h2>".data = true := by decide
    have hd2 : litSafe ledeLit "</h2>".data = true := by decide
    exact litSafe_append (litSafe_append hd1
      (litSafe_of_no_lt (not_mem_escape_lt t))) hd2
  | paragraph t =>
    have hd1 : litSafe ledeLit "<p>".data = true := by decide
    have hd2 : litSafe ledeLit "</p>".data = true := by decide
    refine litSafe_append (litSafe_append hd1 ?_) hd2
    rw [inline_format]
    exact litSafe_strongSub (escape t).length (escape t) le_rfl
      (not_mem_escape_lt t)

theorem litSafe_md_to_html (text : Str) :
    litSafe ledeLit (md_to_html text) = true := by
  rw [md_to_html]
  have hsep : litSafe ledeLit ['\n'] = true := by decide
  refine litSafe_joinSep hsep _ ?_
  intro x hx
  obtain ⟨b, -, rfl⟩ := List.mem_map.mp hx
  exact litSafe_renderBlock b

theorem getD_prop {α : Type} (P : α → Prop) (l : List α) (i : Nat) (d : α)
    (hl : ∀ x ∈ l, P x) (hd : P d) : P (l.getD i d) := by
  rw [List.getD_eq_getElem?_getD]
  cases h : l[i]? with
  | none => exact hd
  | some x =>
    have := List.getElem?_mem h
    simpa using hl x this

theorem mem_natStrAux {c : Char} :
    ∀ (fuel n : Nat), c ∈ natStrAux fuel n → c ∈ "0123456789".data := by
  intro fuel
  induction fuel with
  | zero => intro n h; simp [natStrAux] at h
  | succ f ih =>
    intro n h
    rw [natStrAux] at h
    by_cases hn : n < 10
    · rw [if_pos hn] at h
      rcases List.mem_singleton.mp h with rfl
      exact getD_prop (fun x => x ∈ "0123456789".data) _ _ _
        (fun x hx => hx) (by decide)
    · rw [if_neg hn] at h
      rcases List.mem_append.mp h with h | h
      · exact ih _ h
      · rcases List.mem_singleton.mp h with rfl
        exact getD_prop (fun x => x ∈ "0123456789".data) _ _ _
          (fun x hx => hx) (by decide)

theorem no_lt_natStr (n : Nat) : '<' ∉ natStr n := by
  intro h
  have := mem_natStrAux _ _ h
  simp at this

theorem no_lt_pad2 (n : Nat) : '<' ∉ pad2 n := by
  rw [pad2]
  by_cases hn : n < 10
  · rw [if_pos hn]
    intro h
    rcases List.mem_cons.mp h with h | h
    · exact absurd h (by decide)
    · exact no_lt_natStr n h
  · rw [if_neg hn]
    exact no_lt_natStr n

theorem no_lt_monthNames_getD (i : Nat) : '<' ∉ monthNames.getD i [] := by
  exact getD_prop (fun x => '<' ∉ x) _ _ _ (by decide) (by decide)

theorem no_lt_monthAbbrevs_getD (i : Nat) : '<' ∉ monthAbbrevs.getD i [] := by
  exact getD_prop (fun x => '<' ∉ x) _ _ _ (by decide) (by decide)

theorem no_lt_format_date_long (d : Date) : '<' ∉ format_date_long d := by
  rw [format_date_long]
  intro h
  rcases List.mem_append.mp h with h | h
  · rcases List.mem_append.mp h with h | h
    · rcases List.mem_append.mp h with h | h
      · rcases List.mem_append.mp h with h | h
        · exact no_lt_monthNames_getD _ h
        · exact absurd h (by decide)
      · exact no_lt_natStr _ h
    · exact absurd h (by decide)
  · exact no_lt_natStr _ h

theorem no_lt_format_date_short (d : Date) : '<' ∉ format_date_short d := by
  rw [format_date_short]
  intro h
  rcases List.mem_append.mp h with h | h
  · rcases List.mem_append.mp h with h | h
    · rcases List.mem_append.mp h with h | h
      · rcases List.mem_append.mp h with h | h
        · exact no_lt_monthAbbrevs_getD _ h
        · exact absurd h (by decide)
      · exact no_lt_natStr _ h
    · exact absurd h (by decide)
  · exact no_lt_natStr _ h

theorem no_lt_post_slug (d : Date) : '<' ∉ post_slug d := by
  rw [post_slug]
  intro h
  rcases List.mem_append.mp h with h | h
  · rcases List.mem_append.mp h with h | h
    · rcases List.mem_append.mp h with h | h
      · rcases List.mem_append.mp h with h | h
        · exact no_lt_natStr _ h
        · exact absurd h (by decide)
      · exact no_lt_pad2 _ h
    · exact absurd h (by decide)
  · exact no_lt_pad2 _ h

/-- The rendered post page never contains the index lede marker, so the
first recovery strategy always fails on a post file. -/
theorem searchLedeTag_render_post (d : Date) (text : Str) :
    searchLedeTag (render_post d (md_to_html text)) = none := by
  apply searchLedeTag_none
  rw [render_post]
  have hfdl : litSafe ledeLit (format_date_long d) = true :=
    litSafe_of_no_lt (no_lt_format_date_long d)
  have hslug : litSafe ledeLit (post_slug d) = true :=
    litSafe_of_no_lt (no_lt_post_slug d)
  have hT1 : litSafe ledeLit "<!DOCTYPE html>\n<html lang=\"en\">\n<head>\n<meta charset=\"utf-8\">\n<meta name=\"viewport\" content=\"width=device-width, initial-scale=1\">\n<title>Tucson Daily Brief &mdash; ".data = true := by decide
  have hT2 : litSafe ledeLit "</title>\n<link rel=\"stylesheet\" href=\"../style.css\">\n</head>\n<body>\n<div class=\"container\">\n\n<header>\n<h1><a href=\"../\">Tucson Daily Brief</a></h1>\n<p class=\"tagline\">An AI-powered local news pipeline by Nicholas De Leon</p>\n</header>\n\n<a class=\"back-link\" href=\"../\">&larr; All briefings</a>\n\n<article id=\"".data = true := by decide
  have hT3 : litSafe ledeLit "\">\n<p class=\"post-meta\">".data = true := by decide
  have hT4 : litSafe ledeLit "</p>\n".data = true := by decide
  have hT5 : litSafe ledeLit "\n</article>\n\n<footer>\n<p>By Nicholas De Leon</p>\n<p class=\"footer-links\">\n<a href=\"https://podcasts.apple.com/us/podcast/tucson-daily-brief/id1795533938\">Apple Podcasts</a> &middot;\n<a href=\"https://www.youtube.com/@TucsonDailyBrief\">YouTube</a>\n</p>\n</footer>\n\n</div>\n</body>\n</html>\n".data = true := by decide
  have hbody := litSafe_md_to_html text
  exact litSafe_append (litSafe_append (litSafe_append (litSafe_append
    (litSafe_append (litSafe_append (litSafe_append (litSafe_append
      hT1 hfdl) hT2) hslug) hT3) hfdl) hT4) hbody) hT5

theorem joinSep_cons_ne (sep x : Str) (l : List Str) (h : l ≠ []) :
    joinSep sep (x :: l) = x ++ sep ++ joinSep sep l := by
  cases l with
  | nil => exact absurd rfl h
  | cons y ys => rfl

theorem joinSep_split (sep : Str) :
    ∀ (xs : List Str) (x : Str) (ys : List Str),
      joinSep sep (xs ++ x :: ys) =
        xs.flatMap (fun a => a ++ sep) ++
          (x ++ (if ys.isEmpty then [] else sep ++ joinSep sep ys)) := by
  intro xs
  induction xs with
  | nil =>
    intro x ys
    cases ys with
    | nil => simp [joinSep]
    | cons y ys' =>
      rw [List.nil_append, joinSep_cons_ne _ _ _ (by simp)]
      simp [List.append_assoc]
  | cons a xs' ih =>
    intro x ys
    rw [List.cons_append, joinSep_cons_ne _ _ _ (by simp), ih]
    simp [List.append_assoc]

theorem no_star_flatMap {sep : Str} (hsep : '*' ∉ sep) (xs : List Str)
    (h : ∀ x ∈ xs, '*' ∉ x) : '*' ∉ xs.flatMap (fun a => a ++ sep) := by
  intro hm
  obtain ⟨a, ha, hmem⟩ := List.mem_flatMap.mp hm
  rcases List.mem_append.mp hmem with h1 | h1
  · exact h a ha h1
  · exact hsep h1

theorem no_star_joinSep {sep : Str} (hsep : '*' ∉ sep) :
    ∀ xs : List Str, (∀ x ∈ xs, '*' ∉ x) → '*' ∉ joinSep sep xs := by
  intro xs
  induction xs with
  | nil => intro _; simp [joinSep]
  | cons x ys ih =>
    intro hall
    cases ys with
    | nil => exact hall x (List.mem_cons_self _ _)
    | cons y ys' =>
      rw [joinSep_cons_ne _ _ _ (by simp)]
      intro hm
      rcases List.mem_append.mp hm with h1 | h1
      · rcases List.mem_append.mp h1 with h2 | h2
        · exact hall x (List.mem_cons_self _ _) h2
        · exact hsep h2
      · exact ih (fun z hz => hall z (List.mem_cons_of_mem x hz)) h1

theorem paraCollect_reach (lines : List Str) (endB k : Nat)
    (hk : k < endB)
    (hL : ¬ isParaBreak (pyStrip (lines.getD k [])) = true) :
    ∀ (n i' fuel : Nat), k - i' ≤ n → i' ≤ k → endB - i' ≤ fuel →
      (∀ j, i' ≤ j → j < k → '*' ∉ pyStrip (lines.getD j [])) →
      (∃ plpre plrest : List Str,
        (paraCollect fuel lines endB i').1 =
          plpre ++ pyStrip (lines.getD k []) :: plrest ∧
        ∀ x ∈ plpre, '*' ∉ x) ∨
      ((∀ x ∈ (paraCollect fuel lines endB i').1, '*' ∉ x) ∧
        i' ≤ (paraCollect fuel lines endB i').2 ∧
        (paraCollect fuel lines endB i').2 < k ∧
        isParaBreak (pyStrip (lines.getD
          (paraCollect fuel lines endB i').2 [])) = true) := by
  intro n
  induction n with
  | zero =>
    intro i' fuel hn hik hfuel hstar
    have hik' : i' = k := by omega
    subst hik'
    obtain ⟨f, rfl⟩ : ∃ f, fuel = f + 1 := by
      cases fuel with
      | zero => omega
      | succ f => exact ⟨f, rfl⟩
    left
    rw [paraCollect_cons f lines endB i' hk hL]
    exact ⟨[], (paraCollect f lines endB (i' + 1)).1, rfl, by simp⟩
  | succ n ih =>
    intro i' fuel hn hik hfuel hstar
    by_cases hik' : i' = k
    · subst hik'
      obtain ⟨f, rfl⟩ : ∃ f, fuel = f + 1 := by
        cases fuel with
        | zero => omega
        | succ f => exact ⟨f, rfl⟩
      left
      rw [paraCollect_cons f lines endB i' hk hL]
      exact ⟨[], (paraCollect f lines endB (i' + 1)).1, rfl, by simp⟩
    · have hilt : i' < k := by omega
      obtain ⟨f, rfl⟩ : ∃ f, fuel = f + 1 := by
        cases fuel with
        | zero => omega
        | succ f => exact ⟨f, rfl⟩
      have hiend : i' < endB := by omega
      by_cases hbr : isParaBreak (pyStrip (lines.getD i' [])) = true
      · right
        rw [paraCollect_break f lines endB i' hiend hbr]
        exact ⟨by simp, le_rfl, hilt, hbr⟩
      · rw [paraCollect_cons f lines endB i' hiend hbr]
        have hstar' : ∀ j, i' + 1 ≤ j → j < k →
            '*' ∉ pyStrip (lines.getD j []) := by
          intro j h1 h2
          exact hstar j (by omega) h2
        rcases ih (i' + 1) f (by omega) (by omega) (by omega) hstar' with
          ⟨plpre, plrest, heq, hfree⟩ | ⟨hfree, hge, hlt, hbr'⟩
        · left
          refine ⟨pyStrip (lines.getD i' []) :: plpre, plrest, ?_, ?_⟩
          · simp only [heq]
            rfl
          · intro x hx
            rcases List.mem_cons.mp hx with rfl | hx
            · exact hstar i' le_rfl hilt
            · exact hfree x hx
        · right
          refine ⟨?_, by omega, hlt, hbr'⟩
          intro x hx
          rcases List.mem_cons.mp hx with rfl | hx
          · exact hstar i' le_rfl hilt
          · exact hfree x hx

theorem parse_reach_base (lines : List Str) (endB k : Nat)
    (hk : k < endB)
    (hblank : ¬ (pyStrip (lines.getD k [])).isEmpty = true)
    (hrule : ¬ isRule (pyStrip (lines.getD k [])) = true)
    (hcit : ¬ isCitStart (pyStrip (lines.getD k [])) = true)
    (hhead : ¬ isHeadStart (pyStrip (lines.getD k [])) = true)
    (f : Nat) :
    ∃ (tpost : Str) (rest2 : List Block),
      parseAux (f + 1) lines endB k =
        Block.paragraph (pyStrip (lines.getD k []) ++ tpost) :: rest2 := by
  rw [parseAux_paragraph f lines endB k hk hblank hrule hcit hhead]
  cases hpc : (paraCollect f lines endB (k + 1)).1 with
  | nil =>
    refine ⟨[], parseAux f lines endB (paraCollect f lines endB (k + 1)).2, ?_⟩
    simp [joinSep]
  | cons y ys =>
    refine ⟨[' '] ++ joinSep [' '] (y :: ys),
      parseAux f lines endB (paraCollect f lines endB (k + 1)).2, ?_⟩
    rw [joinSep_cons_ne _ _ _ (by simp)]
    simp [List.append_assoc]

theorem parse_reach (lines : List Str) (endB k : Nat)
    (hk : k < endB)
    (hblank : ¬ (pyStrip (lines.getD k [])).isEmpty = true)
    (hrule : ¬ isRule (pyStrip (lines.getD k [])) = true)
    (hcit : ¬ isCitStart (pyStrip (lines.getD k [])) = true)
    (hpic : ¬ isPictoStart (pyStrip (lines.getD k [])) = true) :
    ∀ (n i fuel : Nat), k - i ≤ n → i ≤ k → endB - i ≤ fuel →
      (∀ j, i ≤ j → j < k → '*' ∉ pyStrip (lines.getD j [])) →
      ∃ (pre : List Block) (tpre tpost : Str) (rest2 : List Block),
        parseAux fuel lines endB i =
          pre ++ Block.paragraph
            (tpre ++ pyStrip (lines.getD k []) ++ tpost) :: rest2 ∧
        (∀ b ∈ pre, ∀ t : Str, b = Block.paragraph t → '*' ∉ t) ∧
        '*' ∉ tpre := by
  have hhead : ¬ isHeadStart (pyStrip (lines.getD k [])) = true := by
    simp only [isHeadStart, Bool.and_eq_true]
    intro h
    exact hpic h.1
  have hbreak : ¬ isParaBreak (pyStrip (lines.getD k [])) = true := by
    intro h
    simp only [isParaBreak, Bool.or_eq_true] at h
    rcases h with ((h1 | h1) | h1) | h1
    · exact hblank h1
    · exact hcit h1
    · exact hrule h1
    · exact hpic h1
  intro n
  induction n with
  | zero =>
    intro i fuel hn hik hfuel hstar
    have hik' : i = k := by omega
    subst hik'
    obtain ⟨f, rfl⟩ : ∃ f, fuel = f + 1 := by
      cases fuel with
      | zero => omega
      | succ f => exact ⟨f, rfl⟩
    obtain ⟨tpost, rest2, heq⟩ :=
      parse_reach_base lines endB i hk hblank hrule hcit hhead f
    exact ⟨[], [], tpost, rest2, by simpa using heq, by simp, by simp⟩
  | succ n ih =>
    intro i fuel hn hik hfuel hstar
    by_cases hik' : i = k
    · subst hik'
      obtain ⟨f, rfl⟩ : ∃ f, fuel = f + 1 := by
        cases fuel with
        | zero => omega
        | succ f => exact ⟨f, rfl⟩
      obtain ⟨tpost, rest2, heq⟩ :=
        parse_reach_base lines endB i hk hblank hrule hcit hhead f
      exact ⟨[], [], tpost, rest2, by simpa using heq, by simp, by simp⟩
    · have hlt : i < k := by omega
      have hiend : i < endB := by omega
      obtain ⟨f, rfl⟩ : ∃ f, fuel = f + 1 := by
        cases fuel with
        | zero => omega
        | succ f => exact ⟨f, rfl⟩
      have hstar1 : ∀ j, i + 1 ≤ j → j < k →
          '*' ∉ pyStrip (lines.getD j []) :=
        fun j h1 h2 => hstar j (by omega) h2
      by_cases hbl : (pyStrip (lines.getD i [])).isEmpty = true
      · rw [parseAux_blank f lines endB i hiend hbl]
        exact ih (i + 1) f (by omega) (by omega) (by omega) hstar1
      · by_cases hru : isRule (pyStrip (lines.getD i [])) = true
        · rw [parseAux_rule f lines endB i hiend hbl hru]
          obtain ⟨pre, tpre, tpost, rest2, heq, hsafe, htpre⟩ :=
            ih (i + 1) f (by omega) (by omega) (by omega) hstar1
          refine ⟨Block.rule :: pre, tpre, tpost, rest2, ?_, ?_, htpre⟩
          · rw [heq]
            rfl
          · intro b hb t ht
            rcases List.mem_cons.mp hb with rfl | hb
            · cases ht
            · exact hsafe b hb t ht
        · by_cases hci : isCitStart (pyStrip (lines.getD i [])) = true
          · rw [parseAux_citation f lines endB i hiend hbl hru hci]
            obtain ⟨pre, tpre, tpost, rest2, heq, hsafe, htpre⟩ :=
              ih (i + 1) f (by omega) (by omega) (by omega) hstar1
            refine ⟨Block.citation (citText (pyStrip (lines.getD i []))) :: pre,
              tpre, tpost, rest2, ?_, ?_, htpre⟩
            · rw [heq]
              rfl
            · intro b hb t ht
              rcases List.mem_cons.mp hb with rfl | hb
              · cases ht
              · exact hsafe b hb t ht
          · by_cases hhd : isHeadStart (pyStrip (lines.getD i [])) = true
            · rw [parseAux_heading f lines endB i hiend hbl hru hci hhd]
              obtain ⟨pre, tpre, tpost, rest2, heq, hsafe, htpre⟩ :=
                ih (i + 1) f (by omega) (by omega) (by omega) hstar1
              refine ⟨Block.heading (pyStrip (lines.getD i [])) :: pre,
                tpre, tpost, rest2, ?_, ?_, htpre⟩
              · rw [heq]
                rfl
              · intro b hb t ht
                rcases List.mem_cons.mp hb with rfl | hb
                · cases ht
                · exact hsafe b hb t ht
            · rw [parseAux_paragraph f lines endB i hiend hbl hru hci hhd]
              rcases paraCollect_reach lines endB k hk hbreak n (i + 1) f
                  (by omega) (by omega) (by omega) hstar1 with
                ⟨plpre, plrest, hpc, hfree⟩ | ⟨hfree, hge, hplt, hpbr⟩
              · refine ⟨[],
                  (pyStrip (lines.getD i []) :: plpre).flatMap (fun a => a ++ [' ']),
                  (if plrest.isEmpty then [] else [' '] ++ joinSep [' '] plrest),
                  parseAux f lines endB (paraCollect f lines endB (i + 1)).2,
                  ?_, by simp, ?_⟩
                · rw [hpc, ← List.cons_append,
                    joinSep_split [' '] (pyStrip (lines.getD i []) :: plpre)
                      (pyStrip (lines.getD k [])) plrest]
                  simp [List.append_assoc]
                · refine no_star_flatMap (by decide) _ ?_
                  intro x hx
                  rcases List.mem_cons.mp hx with rfl | hx
                  · exact hstar i le_rfl hlt
                  · exact hfree x hx
              · obtain ⟨pre, tpre, tpost, rest2, heq, hsafe, htpre⟩ :=
                  ih (paraCollect f lines endB (i + 1)).2 f (by omega) (by omega)
                    (by omega) (fun j h1 h2 => hstar j (by omega) h2)
                refine ⟨Block.paragraph (joinSep [' ']
                    (pyStrip (lines.getD i []) ::
                      (paraCollect f lines endB (i + 1)).1)) :: pre,
                  tpre, tpost, rest2, ?_, ?_, htpre⟩
                · rw [heq]
                  rfl
                · intro b hb t ht
                  rcases List.mem_cons.mp hb with rfl | hb
                  · injection ht with ht'
                    subst ht'
                    refine no_star_joinSep (by decide) _ ?_
                    intro x hx
                    rcases List.mem_cons.mp hx with rfl | hx
                    · exact hstar i le_rfl hlt
                    · exact hfree x hx
                  · exact hsafe b hb t ht

theorem computeEndGo_le : ∀ (r : List Str) (e : Nat), computeEndGo r e ≤ e := by
  intro r
  induction r with
  | nil => intro e; exact le_rfl
  | cons l rest ih =>
    intro e
    rw [computeEndGo]
    by_cases hf : isFooterLine l = true
    · rw [if_pos hf]
      exact le_trans (ih (e - 1)) (Nat.sub_le e 1)
    · rw [if_neg hf]

theorem computeEnd_le (lines : List Str) : computeEnd lines ≤ lines.length :=
  computeEndGo_le _ _

theorem ltSafe_flatMap {xs : List Str} (h : ∀ x ∈ xs, ltSafe x = true) :
    ltSafe (xs.flatMap (fun a => a ++ ['\n'])) = true := by
  induction xs with
  | nil => decide
  | cons x rest ih =>
    rw [List.flatMap_cons]
    exact ltSafe_append (ltSafe_append (h x (List.mem_cons_self _ _))
      (by decide)) (ih (fun y hy => h y (List.mem_cons_of_mem x hy)))

theorem ltSafe_renderBlock_safe (b : Block)
    (hb : ∀ t : Str, b = Block.paragraph t → '*' ∉ t) :
    ltSafe (renderBlock b) = true := by
  cases b with
  | rule => decide
  | citation t =>
    exact ltSafe_append (ltSafe_append (by decide)
      (ltSafe_of_no_lt (not_mem_escape_lt t))) (by decide)
  | heading t =>
    exact ltSafe_append (ltSafe_append (by decide)
      (ltSafe_of_no_lt (not_mem_escape_lt t))) (by decide)
  | paragraph t =>
    have ht : '*' ∉ t := hb t rfl
    have hin : inline_format t = escape t := by
      rw [inline_format]
      exact strongSub_id_of_no_star (escape_no_star ht)
    refine ltSafe_append (ltSafe_append (by decide) ?_) (by decide)
    rw [hin]
    exact ltSafe_of_no_lt (not_mem_escape_lt t)

theorem rstripDots_eq_self {s : Str} (h : s.getLast? ≠ some '.') :
    rstripDots s = s := by
  cases hs : s.reverse with
  | nil =>
    rw [List.reverse_eq_nil_iff] at hs
    subst hs
    rfl
  | cons a as =>
    have hga : s.getLast? = some a := by
      rw [← List.head?_reverse, hs, List.head?_cons]
    have ha : ¬ (a == '.') = true := by
      simp only [beq_iff_eq]
      rintro rfl
      exact h hga
    rw [rstripDots, hs, List.dropWhile_cons, if_neg ha, ← hs,
      List.reverse_reverse]

theorem rstripDots_append_dot (s : Str) :
    rstripDots (s ++ ['.']) = rstripDots s := by
  rw [rstripDots, rstripDots, List.reverse_append]
  have h1 : (['.'] : Str).reverse = ['.'] := rfl
  rw [h1, List.singleton_append, List.dropWhile_cons, if_pos (by decide)]

theorem rstripDots_strip_one {s : Str}
    (h : (if s.getLast? = some '.' then s.dropLast else s).getLast? ≠
      some '.') :
    rstripDots s = (if s.getLast? = some '.' then s.dropLast else s) := by
  by_cases hl : s.getLast? = some '.'
  · rw [if_pos hl] at h ⊢
    have hsne : s ≠ [] := by
      rintro rfl
      simp at hl
    have hglv : s.getLast? = some (s.getLast hsne) :=
      List.getLast?_eq_getLast s hsne
    have hgl : s.getLast hsne = '.' := by
      rw [hglv] at hl
      exact Option.some.inj hl
    have hdec : s.dropLast ++ ['.'] = s := by
      have h1 := List.dropLast_append_getLast hsne
      rw [hgl] at h1
      exact h1
    calc rstripDots s = rstripDots (s.dropLast ++ ['.']) := by rw [hdec]
      _ = rstripDots s.dropLast := rstripDots_append_dot _
      _ = s.dropLast := rstripDots_eq_self h
  · rw [if_neg hl] at h ⊢
    exact rstripDots_eq_self h

/-- C9 (amended): for a briefing whose first bold span sits on a
paragraph-classified line after the dropped title and before the stripped
footer, with every earlier line free of asterisks, the span content free of
the four escaped characters and of further asterisk pairs, at most 120
characters after stripping one trailing period, and — the amendment — not
still ending in a period after that single strip, metadata recovery on the
rendered post page returns exactly the extractor's lede. -/
theorem c9_lede_roundtrip (raw : Str) (d : Date) (k : Nat) (c : Str)
    (hoff : titleOffset (splitNl (pyStrip raw)) ≤ k)
    (hk : k < computeEnd (splitNl (pyStrip raw)))
    (hprev : ∀ j ∈ List.range k, '*' ∉ (splitNl (pyStrip raw)).getD j [])
    (hrule : ¬ isRule (pyStrip ((splitNl (pyStrip raw)).getD k [])) = true)
    (hcit : ¬ isCitStart (pyStrip ((splitNl (pyStrip raw)).getD k [])) = true)
    (hpic : ¬ isPictoStart (pyStrip ((splitNl (pyStrip raw)).getD k [])) = true)
    (hspan : firstStrong (pyStrip ((splitNl (pyStrip raw)).getD k [])) = some c)
    (hchars : ∀ ch ∈ c, specChar ch = false)
    (hlen : (if c.getLast? = some '.' then c.dropLast else c).length ≤ 120)
    (hnd : (if c.getLast? = some '.' then c.dropLast else c).getLast? ≠
      some '.') :
    recoverLede (render_post d (md_to_html raw)) = extract_lede raw ∧
    extract_lede raw = (if c.getLast? = some '.' then c.dropLast else c) := by
  have hnlL : '\n' ∉ pyStrip ((splitNl (pyStrip raw)).getD k []) := by
    intro hm
    exact (getD_prop (fun x => '\n' ∉ x) (splitNl (pyStrip raw)) k []
      (splitNl_no_newline (pyStrip raw)) (by decide)) (mem_pyStrip_sub hm)
  obtain ⟨A, B0, hdecomp, hTSF, hsplit⟩ :=
    firstStrong_decomp (pyStrip ((splitNl (pyStrip raw)).getD k [])).length
      (pyStrip ((splitNl (pyStrip raw)).getD k [])) le_rfl hnlL c hspan
  obtain ⟨-, hcne, hcnl⟩ := splitAtClose_eq hsplit
  have hclt : '<' ∉ c := fun hm => absurd (hchars _ hm) (by decide)
  have hblank : ¬ (pyStrip ((splitNl (pyStrip raw)).getD k [])).isEmpty
      = true := by
    rw [hdecomp]
    simp
  have hklen : k < (splitNl (pyStrip raw)).length :=
    lt_of_lt_of_le hk (computeEnd_le _)
  have hfsk : firstStrong ((splitNl (pyStrip raw)).getD k []) = some c := by
    obtain ⟨w1, w2, hW, hw1, hw2⟩ :=
      pyStrip_decomp ((splitNl (pyStrip raw)).getD k [])
    have hw1star : '*' ∉ w1 := fun hm => isPySpace_ne_star (hw1 _ hm) rfl
    calc firstStrong ((splitNl (pyStrip raw)).getD k [])
        = firstStrong (w1 ++ (pyStrip ((splitNl (pyStrip raw)).getD k [])
            ++ w2)) := by
          rw [← List.append_assoc, ← hW]
      _ = firstStrong (pyStrip ((splitNl (pyStrip raw)).getD k []) ++ w2) :=
        firstStrong_nostar_prefix hw1star _
      _ = some c := by
          rw [hdecomp]
          have hre : (A ++ '*' :: '*' :: (c ++ '*' :: '*' :: B0)) ++ w2 =
              A ++ '*' :: '*' :: (c ++ '*' :: '*' :: (B0 ++ w2)) := by
            simp [List.append_assoc]
          rw [hre, firstStrong_at A hTSF,
            firstStrong_open_some (splitAtClose_self _ _ _ hsplit (B0 ++ w2))]
  have hext : extract_lede raw = ledeAdjust c := by
    rw [extract_lede]
    exact extractLedeGo_at _ k c
      (fun j hj => firstStrong_none_of_no_star
        (hprev j (List.mem_range.mpr hj))) hklen hfsk
  have hadj : ledeAdjust c =
      (if c.getLast? = some '.' then c.dropLast else c) := by
    simp only [ledeAdjust]
    rw [if_neg (not_lt.mpr hlen)]
  have hstarstrip : ∀ j, titleOffset (splitNl (pyStrip raw)) ≤ j → j < k →
      '*' ∉ pyStrip ((splitNl (pyStrip raw)).getD j []) := by
    intro j _ hj hm
    exact hprev j (List.mem_range.mpr hj) (mem_pyStrip_sub hm)
  obtain ⟨pre, tpre, tpost, rest2, hpeq, hsafe, htpre⟩ :=
    parse_reach (splitNl (pyStrip raw)) (computeEnd (splitNl (pyStrip raw))) k
      hk hblank hrule hcit hpic k (titleOffset (splitNl (pyStrip raw)))
      ((splitNl (pyStrip raw)).length + 1) (Nat.sub_le _ _) hoff
      (by have := computeEnd_le (splitNl (pyStrip raw)); omega) hstarstrip
  have hblocks : parseBlocks raw =
      pre ++ Block.paragraph (tpre ++
        pyStrip ((splitNl (pyStrip raw)).getD k []) ++ tpost) :: rest2 := by
    simp only [parseBlocks]
    exact hpeq
  have hmd : md_to_html raw =
      (pre.map renderBlock).flatMap (fun a => a ++ ['\n']) ++
        (renderBlock (Block.paragraph (tpre ++
            pyStrip ((splitNl (pyStrip raw)).getD k []) ++ tpost)) ++
          (if (rest2.map renderBlock).isEmpty then []
            else ['\n'] ++ joinSep ['\n'] (rest2.map renderBlock))) := by
    rw [md_to_html, hblocks, List.map_append, List.map_cons]
    exact joinSep_split ['\n'] (pre.map renderBlock) _ _
  have hA2 : TwoStarFree (tpre ++ A ++ ['*']) := by
    rw [List.append_assoc]
    exact TwoStarFree_nostar_append htpre hTSF
  have hEA2 : TwoStarFree (escape (tpre ++ A) ++ ['*']) :=
    TwoStarFree_escape_concat _ hA2
  have hec : escape c = c := escape_id_of_no_spec hchars
  have hsplit2 : splitAtClose (c ++ '*' :: '*' :: escape (B0 ++ tpost)) =
      some (c, escape (B0 ++ tpost)) :=
    splitAtClose_self _ _ _ hsplit _
  have hinline : inline_format (tpre ++
      pyStrip ((splitNl (pyStrip raw)).getD k []) ++ tpost) =
      escape (tpre ++ A) ++ ("<strong>".data ++ (c ++ ("</strong>".data ++
        strongSub (escape (B0 ++ tpost))))) := by
    rw [inline_format]
    have ht : tpre ++ pyStrip ((splitNl (pyStrip raw)).getD k []) ++ tpost =
        (tpre ++ A) ++ '*' :: '*' :: (c ++ '*' :: '*' :: (B0 ++ tpost)) := by
      rw [hdecomp]
      simp [List.append_assoc]
    have hesc : escape ((tpre ++ A) ++
        '*' :: '*' :: (c ++ '*' :: '*' :: (B0 ++ tpost))) =
        escape (tpre ++ A) ++
          '*' :: '*' :: (c ++ '*' :: '*' :: escape (B0 ++ tpost)) := by
      rw [escape_append (tpre ++ A), escape_star_star, escape_append c,
        escape_star_star, hec]
    rw [ht, hesc, strongSub_at (escape (tpre ++ A)) hEA2,
      strongSub_open_some hsplit2]
    simp [List.append_assoc]
  have hflats : ltSafe ((pre.map renderBlock).flatMap
      (fun a => a ++ ['\n'])) = true := by
    refine ltSafe_flatMap ?_
    intro x hx
    obtain ⟨b, hb, rfl⟩ := List.mem_map.mp hx
    exact ltSafe_renderBlock_safe b (fun t htb => hsafe b hb t htb)
  have hfdls : ltSafe (format_date_long d) = true :=
    ltSafe_of_no_lt (no_lt_format_date_long d)
  have hslugs : ltSafe (post_slug d) = true :=
    ltSafe_of_no_lt (no_lt_post_slug d)
  have hescs : ltSafe (escape (tpre ++ A)) = true :=
    ltSafe_of_no_lt (not_mem_escape_lt _)
  have hT1s : ltSafe "<!DOCTYPE html>\n<html lang=\"en\">\n<head>\n<meta charset=\"utf-8\">\n<meta name=\"viewport\" content=\"width=device-width, initial-scale=1\">\n<title>Tucson Daily Brief &mdash; ".data = true := by decide
  have hT2s : ltSafe "</title>\n<link rel=\"stylesheet\" href=\"../style.css\">\n</head>\n<body>\n<div class=\"container\">\n\n<header>\n<h1><a href=\"../\">Tucson Daily Brief</a></h1>\n<p class=\"tagline\">An AI-powered local news pipeline by Nicholas De Leon</p>\n</header>\n\n<a class=\"back-link\" href=\"../\">&larr; All briefings</a>\n\n<article id=\"".data = true := by decide
  have hT3s : ltSafe "\">\n<p class=\"post-meta\">".data = true := by decide
  have hT4s : ltSafe "</p>\n".data = true := by decide
  have hps : ltSafe "<p>".data = true := by decide
  have hstrongdoc : searchStrong (render_post d (md_to_html raw)) =
      some c := by
    rw [render_post, hmd]
    simp only [renderBlock]
    rw [hinline]
    simp only [List.append_assoc]
    rw [searchStrong_skip _ hT1s, searchStrong_skip _ hfdls,
      searchStrong_skip _ hT2s, searchStrong_skip _ hslugs,
      searchStrong_skip _ hT3s, searchStrong_skip _ hfdls,
      searchStrong_skip _ hT4s, searchStrong_skip _ hflats,
      searchStrong_skip _ hps, searchStrong_skip _ hescs]
    exact searchStrong_found _ hcne hcnl hclt
  have hrec : recoverLede (render_post d (md_to_html raw)) =
      rstripDots c := by
    simp only [recoverLede, searchLedeTag_render_post d raw, hstrongdoc]
  refine ⟨?_, by rw [hext, hadj]⟩
  rw [hrec, rstripDots_strip_one hnd, hext, hadj]

/-- Concrete instance of `c9_lede_roundtrip`: for the one-line briefing
`**Hi.** more`, recovery from the rendered page and extraction from the raw
text both give `Hi` (the span content with its one trailing period
stripped). -/
theorem c9_witness :
    recoverLede (render_post ⟨2026, 2, 18⟩
        (md_to_html "**Hi.** more".data)) =
      extract_lede "**Hi.** more".data ∧
    extract_lede "**Hi.** more".data = "Hi".data := by
  have h := c9_lede_roundtrip "**Hi.** more".data ⟨2026, 2, 18⟩ 0 "Hi.".data
    (by decide) (by decide) (by decide) (by decide) (by decide) (by decide)
    (by decide) (by decide) (by decide) (by decide)
  refine ⟨h.1, ?_⟩
  rw [h.2]
  decide
